import Mathlib

/-!
# Node registry of the route controller (`pkg/routing/nodes.go`)

A shallow embedding of `NodeMap` and `NodeInfo` and of their operations.

* Go pointers to `NodeInfo` objects are addresses into an explicit heap, a list of
  objects in which an address is an index and allocation appends. The map
  `nodes map[string]*NodeInfo` is an association list from names to addresses and the
  alias `me *NodeInfo` is an optional address, so that an object reached both through
  the map and through `me` is one object.
* `version uint64` is a natural number below `2 ^ 64`; `version++` is the increment
  modulo `2 ^ 64`.
* `net.IP` and `net.IPMask` are byte slices: lists of naturals, with the nil slice of an
  attribute of `NodeInfo` as `none`. `*net.IPNet` values are never written through, so
  they are embedded by value.
* `net.ParseIP` and `net.ParseCIDR` belong to the Go standard library. The operations
  take them as the two fields of a `NetLib` argument; `ipv4Net` is one instance.
* The mutex, the embedded `util.Stoppable` and the log calls have no effect on the
  values computed and are left out; every operation is one atomic state transition.
-/

namespace Routing

/-! ## Values of the `net` package -/

/-- The type `net.IPNet`: an address and a mask, both byte slices. -/
structure IPNet where
  IP : List Nat
  Mask : List Nat
deriving DecidableEq, Repr

/-- The Go standard library functions the package calls: `net.ParseIP` (`none` for a nil
result) and `net.ParseCIDR` (`none` for an error or a nil network). -/
structure NetLib where
  ParseIP : String → Option (List Nat)
  ParseCIDR : String → Option IPNet

/-- The twelve bytes that precede an IPv4 address in its 16-byte form (`net.v4InV6Prefix`). -/
def v4InV6 : List Nat := [0, 0, 0, 0, 0, 0, 0, 0, 0, 0, 0xff, 0xff]

/-- The method `net.IP.Equal`: equality of addresses, an IPv4 address and its 16-byte form
being equal. -/
def IPEqual (ip x : List Nat) : Bool :=
  if ip.length = x.length then decide (ip = x)
  else if ip.length = 4 ∧ x.length = 16 then
    decide (x.take 12 = v4InV6) && decide (ip = x.drop 12)
  else if ip.length = 16 ∧ x.length = 4 then
    decide (ip.take 12 = v4InV6) && decide (ip.drop 12 = x)
  else false

/-! ## Node records of the cluster API (`v1.Node`), the fields read by the package -/

/-- The constant `v1.NodeInternalIP`. -/
def NodeInternalIP : String := "InternalIP"

/-- The type `v1.NodeAddress`; `AddrType` is its field `Type`. -/
structure NodeAddress where
  AddrType : String
  Address : String
deriving DecidableEq, Repr

/-- The type `v1.NodeSpec`, its field `PodCIDR`. -/
structure NodeSpec where
  PodCIDR : String
deriving DecidableEq, Repr

/-- The type `v1.NodeStatus`, its field `Addresses`. -/
structure NodeStatus where
  Addresses : List NodeAddress
deriving DecidableEq, Repr

/-- The type `v1.Node`. -/
structure Node where
  Name : String
  Spec : NodeSpec
  Status : NodeStatus
deriving DecidableEq, Repr

/-! ## `NodeInfo` -/

/-- The type `NodeInfo`: the subset of the node information the package keeps. -/
structure NodeInfo where
  Name : String
  Address : Option (List Nat)
  PodCIDR : Option IPNet
deriving DecidableEq, Repr

/-- The zero value of `NodeInfo` (`var me NodeInfo`). -/
def NodeInfo.zero : NodeInfo := ⟨"", none, none⟩

/-- Equality by value of two subnet attributes, an old and a new one: both absent, or both
present with addresses equal under `IP.Equal` and masks equal as bytes, the comparison of
line 144. -/
def samePodCIDR (old new : Option IPNet) : Bool :=
  match old, new with
  | none, none => true
  | some cur, some ipnet => IPEqual ipnet.IP cur.IP && decide (cur.Mask = ipnet.Mask)
  | _, _ => false

/-- Equality by value of two address attributes, an old and a new one: both absent, or both
present and equal under `IP.Equal`, the comparison of line 178. -/
def sameAddress (old new : Option (List Nat)) : Bool :=
  match old, new with
  | none, none => true
  | some cur, some a => IPEqual cur a
  | _, _ => false

/-- Lines 128-149 of `update`: the subnet attribute. -/
def NodeInfo.updatePodCIDR (net : NetLib) (n : NodeInfo) (src : Node) : NodeInfo × Bool :=
  let cidr := src.Spec.PodCIDR
  if cidr = "" then
    if n.PodCIDR ≠ none then ({ n with PodCIDR := none }, true) else (n, false)
  else
    match net.ParseCIDR cidr with
    | none =>
      if n.PodCIDR ≠ none then ({ n with PodCIDR := none }, true) else (n, false)
    | some ipnet =>
      match n.PodCIDR with
      | none => ({ n with PodCIDR := some ipnet }, true)
      | some cur =>
        if !(IPEqual ipnet.IP cur.IP) || !(decide (cur.Mask = ipnet.Mask)) then
          ({ n with PodCIDR := some ipnet }, true)
        else (n, false)

/-- Lines 151-157 of `update`: the address strings of the records of type internal, in
the order of the input. -/
def internalIPs (src : Node) : List String :=
  (src.Status.Addresses.filter (fun a => decide (a.AddrType = NodeInternalIP))).map
    (fun a => a.Address)

/-- The call `sort.Strings`: the strings in increasing order, the order of strings being the
lexicographic order of their characters. -/
def sortStrings (l : List String) : List String :=
  l.insertionSort (fun a b => a.data ≤ b.data)

/-- Lines 165-170 of `update`: the candidate, the only internal address or the first one
of the sorted list; `none` when there is no internal address. -/
def chosenIP (src : Node) : Option String :=
  let ips := internalIPs src
  if ips.length = 0 then none
  else (if ips.length ≠ 1 then sortStrings ips else ips).head?

/-- Lines 159-182 of `update`: the address attribute. -/
def NodeInfo.updateAddress (net : NetLib) (n : NodeInfo) (src : Node) : NodeInfo × Bool :=
  match chosenIP src with
  | none =>
    if n.Address ≠ none then ({ n with Address := none }, true) else (n, false)
  | some internalIP =>
    match net.ParseIP internalIP with
    | none =>
      if n.Address ≠ none then ({ n with Address := none }, true) else (n, false)
    | some a =>
      if !(IPEqual (n.Address.getD []) a) then ({ n with Address := some a }, true)
      else (n, false)

/-- The method `(n *NodeInfo) update(src)`: the object after the call and the value
returned. -/
def NodeInfo.update (net : NetLib) (n : NodeInfo) (src : Node) : NodeInfo × Bool :=
  let r1 := n.updatePodCIDR net src
  let r2 := r1.1.updateAddress net src
  (r2.1, r1.2 || r2.2)

/-! ## `NodeMap` -/

/-- The type `NodeMap`, with the heap of the `NodeInfo` objects allocated so far. -/
structure NodeMap where
  mePredicate : Node → Bool
  ready : Bool
  nodes : List (String × Nat)
  version : Nat
  me : Option Nat
  heap : List NodeInfo

/-- The object at an address. -/
def deref (heap : List NodeInfo) (a : Nat) : NodeInfo :=
  heap.getD a NodeInfo.zero

/-- The map index expression `nodes[name]`: `none` is the nil pointer. -/
def mapGet (nodes : List (String × Nat)) (name : String) : Option Nat :=
  (nodes.find? (fun p => decide (p.1 = name))).map (fun p => p.2)

/-- The builtin `delete(nodes, name)`. -/
def mapDelete (nodes : List (String × Nat)) (name : String) : List (String × Nat) :=
  nodes.filter (fun p => decide (p.1 ≠ name))

/-- The map assignment `nodes[name] = a`. -/
def mapSet (nodes : List (String × Nat)) (name : String) (a : Nat) : List (String × Nat) :=
  mapDelete nodes name ++ [(name, a)]

/-- The function `NewNodeMap`. -/
def NewNodeMap (mePredicate : Node → Bool) : NodeMap :=
  { mePredicate := mePredicate, ready := false, nodes := [], version := 0, me := none,
    heap := [] }

/-- The method `IsVersion`. -/
def NodeMap.IsVersion (m : NodeMap) (version : Nat) : Bool :=
  decide (m.version = version)

/-- The method `IsReady`. -/
def NodeMap.IsReady (m : NodeMap) : Bool :=
  m.ready

/-- The method `Snapshot`: the copy of self (`none` for the nil pointer), the copies of the
tracked objects in the iteration order of the map, here the order of the association
list, and the version. -/
def NodeMap.Snapshot (m : NodeMap) : Option NodeInfo × List NodeInfo × Nat :=
  if !m.ready then (none, [], 0)
  else
    let nodes := m.nodes.map (fun p => deref m.heap p.2)
    let me := match m.me with
      | some a => deref m.heap a
      | none => NodeInfo.zero
    (some me, nodes, m.version)

/-- The method `MarkReady`. -/
def NodeMap.MarkReady (m : NodeMap) : NodeMap :=
  { m with ready := true }

/-- The method `RemoveNode`. -/
def NodeMap.RemoveNode (m : NodeMap) (node : Node) : NodeMap :=
  { m with nodes := mapDelete m.nodes node.Name, version := (m.version + 1) % 2 ^ 64 }

/-- Lines 83-88 of `UpdateNode`: the address of the object of the name, a new object being
allocated and entered in the map when the name has none; with the flag `changed`. -/
def NodeMap.lookupOrCreate (m : NodeMap) (name : String) : NodeMap × Nat × Bool :=
  match mapGet m.nodes name with
  | some a => (m, a, false)
  | none =>
    let a := m.heap.length
    ({ m with heap := m.heap ++ [{ Name := name, Address := none, PodCIDR := none }],
              nodes := mapSet m.nodes name a }, a, true)

/-- The method `UpdateNode`: the state after the call and the value returned. -/
def NodeMap.UpdateNode (net : NetLib) (m : NodeMap) (src : Node) : NodeMap × Bool :=
  let name := src.Name
  let (m1, a, created) := m.lookupOrCreate name
  let r := (deref m1.heap a).update net src
  let m2 := { m1 with heap := m1.heap.set a r.1 }
  let changed := created || r.2
  let (m3, changed) :=
    if m2.me = none then
      if m2.mePredicate src then ({ m2 with me := some a }, true) else (m2, changed)
    else (m2, changed)
  if changed then ({ m3 with version := (m3.version + 1) % 2 ^ 64 }, true)
  else (m3, false)

/-! ## Sequences of public operations -/

/-- The public operations of a `NodeMap`. -/
inductive Op where
  | updateNode (src : Node)
  | removeNode (node : Node)
  | markReady
  | isReady
  | isVersion (version : Nat)
  | snapshot

/-- The state after one public operation. -/
def step (net : NetLib) (m : NodeMap) : Op → NodeMap
  | .updateNode src => (m.UpdateNode net src).1
  | .removeNode node => m.RemoveNode node
  | .markReady => m.MarkReady
  | .isReady => m
  | .isVersion _ => m
  | .snapshot => m

/-- The state after a sequence of public operations. -/
def run (net : NetLib) (m : NodeMap) (ops : List Op) : NodeMap :=
  ops.foldl (step net) m

/-- The operation is a call of `MarkReady`. -/
def Op.isMarkReady : Op → Bool
  | .markReady => true
  | _ => false

/-- The operation is an `UpdateNode` for a record of the given name. -/
def Op.updates (name : String) : Op → Bool
  | .updateNode src => decide (src.Name = name)
  | _ => false

/-- The states reached from `NewNodeMap` through public operations. -/
def Reachable (net : NetLib) (m : NodeMap) : Prop :=
  ∃ (p : Node → Bool) (ops : List Op), m = run net (NewNodeMap p) ops

/-- The representation invariant of a `NodeMap`: the version is a 64-bit value, the map has
one pair for a key, every pointer in the map or in `me` is to an allocated object, two keys
have two objects, and the object of a key carries the key as its name. It holds of
`NewNodeMap` and every public operation keeps it (`WF_of_Reachable`). -/
structure WF (m : NodeMap) : Prop where
  version_lt : m.version < 2 ^ 64
  keys_nodup : (m.nodes.map (fun p => p.1)).Nodup
  addrs_nodup : (m.nodes.map (fun p => p.2)).Nodup
  addr_valid : ∀ p ∈ m.nodes, p.2 < m.heap.length
  name_eq : ∀ p ∈ m.nodes, (deref m.heap p.2).Name = p.1
  me_valid : ∀ a, m.me = some a → a < m.heap.length

/-- The second state has the version, the map, the objects, the self reference and the
predicate of the first, and is ready when the first is. -/
def SameContent (m m' : NodeMap) : Prop :=
  m'.version = m.version ∧ m'.nodes = m.nodes ∧ m'.heap = m.heap ∧ m'.me = m.me ∧
    m'.mePredicate = m.mePredicate ∧ (m.ready = true → m'.ready = true)

/-! ## An instance of the `net` functions: dotted-decimal IPv4 -/

/-- The pieces of a string between the occurrences of a separator. -/
def splitAt (c : Char) : List Char → List (List Char)
  | [] => [[]]
  | x :: xs =>
    if x = c then [] :: splitAt c xs
    else match splitAt c xs with
      | [] => [[x]]
      | q :: qs => (x :: q) :: qs

/-- The value of a non-empty string of decimal digits. -/
def dtoi (cs : List Char) : Option Nat :=
  if cs = [] then none
  else if cs.all (fun c => decide (48 ≤ c.toNat) && decide (c.toNat ≤ 57)) then
    some (cs.foldl (fun n c => 10 * n + (c.toNat - 48)) 0)
  else none

/-- The four bytes of a dotted-decimal IPv4 address. -/
def parseIPv4 (cs : List Char) : Option (List Nat) :=
  match (splitAt '.' cs).map dtoi with
  | [some a, some b, some c, some d] =>
    if a ≤ 255 ∧ b ≤ 255 ∧ c ≤ 255 ∧ d ≤ 255 then some [a, b, c, d] else none
  | _ => none

/-- The mask of `ones` leading one bits in four bytes (`net.CIDRMask(ones, 32)`). -/
def cidrMask (ones : Nat) : List Nat :=
  (List.range 4).map (fun i => 256 - 2 ^ (8 - min 8 (ones - 8 * i)))

/-- An instance of `NetLib` on the dotted-decimal IPv4 forms: `ParseIP` gives the 16-byte
form of the address, `ParseCIDR` the masked 4-byte address and the 4-byte mask; every other
string, the IPv6 forms included, is not parsed. -/
def ipv4Net : NetLib where
  ParseIP s := (parseIPv4 s.data).map (fun ip => v4InV6 ++ ip)
  ParseCIDR s :=
    match splitAt '/' s.data with
    | [addr, bits] =>
      match parseIPv4 addr, dtoi bits with
      | some ip, some n =>
        if n ≤ 32 then
          some { IP := List.zipWith Nat.land ip (cidrMask n), Mask := cidrMask n }
        else none
      | _, _ => none
    | _ => none

/-- The 16-byte form of an address of four bytes, and any other slice as it is: two slices
are equal under `IP.Equal` when their forms are the same slice (`IPEqual_iff_canonIP`). -/
def canonIP (ip : List Nat) : List Nat :=
  if ip.length = 4 then v4InV6 ++ ip else ip

/-! ## The attributes a record normalizes to -/

/-- The subnet `update` reads from a record (lines 128-137): absent for the empty string
and for a string `net.ParseCIDR` rejects, the parsed network otherwise. -/
def normPodCIDR (net : NetLib) (src : Node) : Option IPNet :=
  if src.Spec.PodCIDR = "" then none else net.ParseCIDR src.Spec.PodCIDR

/-- The address `update` reads from a record (lines 151-171): absent when there is no
internal address or `net.ParseIP` rejects the candidate, the parsed candidate otherwise. -/
def normAddress (net : NetLib) (src : Node) : Option (List Nat) :=
  match chosenIP src with
  | none => none
  | some internalIP => net.ParseIP internalIP

/-- The operation is a `RemoveNode` for a record of the given name. -/
def Op.removes (name : String) : Op → Bool
  | .removeNode node => decide (node.Name = name)
  | _ => false

/-! ## Sample records and states -/

/-- A record with a subnet and two internal addresses. -/
def nodeA : Node :=
  { Name := "a", Spec := { PodCIDR := "10.1.2.0/24" },
    Status := { Addresses := [⟨"InternalIP", "10.0.0.5"⟩, ⟨"ExternalIP", "192.0.2.1"⟩,
                              ⟨"InternalIP", "10.0.0.2"⟩] } }

/-- A record whose subnet string is not in CIDR notation. -/
def nodeB : Node :=
  { Name := "b", Spec := { PodCIDR := "not-a-cidr" },
    Status := { Addresses := [⟨"InternalIP", "10.0.0.7"⟩] } }

/-- A record with an empty subnet string and no address. -/
def nodeC : Node :=
  { Name := "c", Spec := { PodCIDR := "" }, Status := { Addresses := [] } }

/-- A record for the name `a` whose subnet string is not in CIDR notation. -/
def nodeABad : Node :=
  { Name := "a", Spec := { PodCIDR := "not-a-cidr" },
    Status := { Addresses := [⟨"InternalIP", "10.0.0.2"⟩] } }

/-- A record for the name `a` with the normalized attributes of `nodeA`, the subnet
10.1.2.0/24 and the address 10.0.0.2, and with a host name. -/
def nodeA2 : Node :=
  { Name := "a", Spec := { PodCIDR := "10.1.2.77/24" },
    Status := { Addresses := [⟨"Hostname", "host-a"⟩, ⟨"InternalIP", "10.0.0.2"⟩] } }

/-- The record `nodeA` with its address records in the reverse order. -/
def nodeARev : Node :=
  { Name := "a", Spec := { PodCIDR := "10.1.2.0/24" },
    Status := { Addresses := [⟨"InternalIP", "10.0.0.2"⟩, ⟨"ExternalIP", "192.0.2.1"⟩,
                              ⟨"InternalIP", "10.0.0.5"⟩] } }

/-- A record with the two internal addresses of the claims and nothing else. -/
def nodeTwo : Node :=
  { Name := "n", Spec := { PodCIDR := "" },
    Status := { Addresses := [⟨"InternalIP", "10.0.0.5"⟩, ⟨"InternalIP", "10.0.0.2"⟩] } }

/-- A record with two internal addresses of which the smaller string, `10.0.0`, is not an
address and the other one is. -/
def nodeD : Node :=
  { Name := "d", Spec := { PodCIDR := "10.1.3.0/24" },
    Status := { Addresses := [⟨"InternalIP", "10.0.0.5"⟩, ⟨"InternalIP", "10.0.0"⟩] } }

/-- A record with no internal address. -/
def nodeE : Node :=
  { Name := "e", Spec := { PodCIDR := "10.1.4.0/24" },
    Status := { Addresses := [⟨"ExternalIP", "192.0.2.1"⟩, ⟨"Hostname", "10.0.0.9"⟩] } }

/-- A self-identification predicate: the node with the host name `host-a`. -/
def isHostA (n : Node) : Bool :=
  n.Status.Addresses.any (fun a => decide (a.AddrType = "Hostname" ∧ a.Address = "host-a"))

/-- An entry that holds a subnet and an address of its own. -/
def entryOld : NodeInfo :=
  { Name := "a", Address := some (v4InV6 ++ [172, 16, 0, 9]),
    PodCIDR := some ⟨[192, 168, 0, 0], [255, 255, 0, 0]⟩ }

/-- A self-identification predicate: the node named `a`. -/
def isNodeA (n : Node) : Bool := decide (n.Name = "a")

/-- A ready state that tracks `a` (self) and `b`. -/
def stateAB : NodeMap :=
  run ipv4Net (NewNodeMap isNodeA) [.updateNode nodeA, .updateNode nodeB, .markReady]

/-- A ready state that tracks `a` and `b`, with the version at the largest 64-bit value. -/
def stateMax : NodeMap :=
  { stateAB with version := 2 ^ 64 - 1 }

/-- A sequence of operations from `NewNodeMap isNodeA` to `stateMax`: the three operations
of `stateAB`, then `2 ^ 64 - 3` calls of `RemoveNode` for the untracked name `c`. -/
def opsMax : List Op :=
  [.updateNode nodeA, .updateNode nodeB, .markReady] ++
    List.replicate (2 ^ 64 - 3) (.removeNode nodeC)

/-- The state after `a`, which is self, was entered, the map was marked ready and `a` was
removed. -/
def stateRemoved : NodeMap :=
  run ipv4Net (NewNodeMap isNodeA) [.updateNode nodeA, .markReady, .removeNode nodeA]

/-- The state after `a`, which is self, was removed and entered again with another
record. -/
def stateReadded : NodeMap :=
  run ipv4Net (NewNodeMap isNodeA)
    [.updateNode nodeA, .markReady, .removeNode nodeA, .updateNode nodeABad]

/-! ## The method `update` -/

theorem IPEqual_self (x : List Nat) : IPEqual x x = true := by
  simp [IPEqual]

theorem updatePodCIDR_name (net : NetLib) (n : NodeInfo) (src : Node) :
    (n.updatePodCIDR net src).1.Name = n.Name := by
  dsimp only [NodeInfo.updatePodCIDR]
  by_cases h1 : src.Spec.PodCIDR = "" <;> cases h2 : net.ParseCIDR src.Spec.PodCIDR <;>
    cases h3 : n.PodCIDR <;> simp only [h1, if_true, if_false] <;> (try split) <;> rfl

theorem updatePodCIDR_address (net : NetLib) (n : NodeInfo) (src : Node) :
    (n.updatePodCIDR net src).1.Address = n.Address := by
  dsimp only [NodeInfo.updatePodCIDR]
  by_cases h1 : src.Spec.PodCIDR = "" <;> cases h2 : net.ParseCIDR src.Spec.PodCIDR <;>
    cases h3 : n.PodCIDR <;> simp only [h1, if_true, if_false] <;> (try split) <;> rfl

theorem updatePodCIDR_false (net : NetLib) (n : NodeInfo) (src : Node)
    (h : (n.updatePodCIDR net src).2 = false) : (n.updatePodCIDR net src).1 = n := by
  dsimp only [NodeInfo.updatePodCIDR] at h ⊢
  by_cases h1 : src.Spec.PodCIDR = "" <;> cases h2 : net.ParseCIDR src.Spec.PodCIDR <;>
    cases h3 : n.PodCIDR <;> simp only [h1, h2, h3, if_true, if_false] at h ⊢ <;>
    (try split) <;> simp_all

theorem updatePodCIDR_true (net : NetLib) (n : NodeInfo) (src : Node)
    (h : (n.updatePodCIDR net src).2 = true) :
    (n.updatePodCIDR net src).1.PodCIDR ≠ n.PodCIDR := by
  dsimp only [NodeInfo.updatePodCIDR] at h ⊢
  by_cases h1 : src.Spec.PodCIDR = "" <;> cases h2 : net.ParseCIDR src.Spec.PodCIDR <;>
    cases h3 : n.PodCIDR <;> simp [h1, h2, h3] at h ⊢
  rename_i ipnet cur
  by_cases h4 : IPEqual ipnet.IP cur.IP = false ∨ ¬cur.Mask = ipnet.Mask
  · simp only [h4, if_true]
    intro e
    obtain rfl : ipnet = cur := by simpa using e
    simp [IPEqual_self] at h4
  · simp [h4] at h

theorem updateAddress_name (net : NetLib) (n : NodeInfo) (src : Node) :
    (n.updateAddress net src).1.Name = n.Name := by
  dsimp only [NodeInfo.updateAddress]
  cases h1 : chosenIP src with
  | none => dsimp only; split <;> rfl
  | some s =>
    dsimp only
    cases h2 : net.ParseIP s <;> dsimp only <;> split <;> rfl

theorem updateAddress_podCIDR (net : NetLib) (n : NodeInfo) (src : Node) :
    (n.updateAddress net src).1.PodCIDR = n.PodCIDR := by
  dsimp only [NodeInfo.updateAddress]
  cases h1 : chosenIP src with
  | none => dsimp only; split <;> rfl
  | some s =>
    dsimp only
    cases h2 : net.ParseIP s <;> dsimp only <;> split <;> rfl

theorem updateAddress_false (net : NetLib) (n : NodeInfo) (src : Node)
    (h : (n.updateAddress net src).2 = false) : (n.updateAddress net src).1 = n := by
  dsimp only [NodeInfo.updateAddress] at h ⊢
  cases h1 : chosenIP src with
  | none => simp only [h1] at h ⊢; split <;> simp_all
  | some s =>
    simp only [h1] at h ⊢
    cases h2 : net.ParseIP s with
    | none => simp only [h2] at h ⊢; split <;> simp_all
    | some a => simp only [h2] at h ⊢; split <;> simp_all

theorem updateAddress_true (net : NetLib) (n : NodeInfo) (src : Node)
    (h : (n.updateAddress net src).2 = true) :
    (n.updateAddress net src).1.Address ≠ n.Address := by
  dsimp only [NodeInfo.updateAddress] at h ⊢
  cases h1 : chosenIP src with
  | none =>
    simp only [h1] at h ⊢
    split <;> simp_all
    exact fun e => ‹¬n.Address = none› e.symm
  | some s =>
    simp only [h1] at h ⊢
    cases h2 : net.ParseIP s with
    | none =>
      simp only [h2] at h ⊢
      split <;> simp_all
      exact fun e => ‹¬n.Address = none› e.symm
    | some a =>
      simp only [h2] at h ⊢
      by_cases h3 : (!IPEqual (n.Address.getD []) a) = true
      · simp only [h3, if_true]
        intro e
        rw [← e] at h3
        simp [IPEqual_self] at h3
      · simp [h3] at h

theorem updatePodCIDR_again (net : NetLib) (n n' : NodeInfo) (src : Node)
    (h : n'.PodCIDR = (n.updatePodCIDR net src).1.PodCIDR) :
    (n'.updatePodCIDR net src).2 = false := by
  dsimp only [NodeInfo.updatePodCIDR] at h ⊢
  by_cases h1 : src.Spec.PodCIDR = ""
  · simp only [h1, if_true] at h ⊢
    have : n'.PodCIDR = none := by rw [h]; split <;> simp_all
    simp [this]
  · simp only [h1, if_false] at h ⊢
    cases h2 : net.ParseCIDR src.Spec.PodCIDR with
    | none =>
      simp only [h2] at h ⊢
      have : n'.PodCIDR = none := by rw [h]; split <;> simp_all
      simp [this]
    | some ipnet =>
      simp only [h2] at h ⊢
      cases h3 : n.PodCIDR with
      | none =>
        simp only [h3] at h
        simp [h, IPEqual_self]
      | some cur =>
        simp only [h3] at h
        by_cases h4 : (!(IPEqual ipnet.IP cur.IP) || !(decide (cur.Mask = ipnet.Mask))) = true
        · simp only [h4, if_true] at h
          simp [h, IPEqual_self]
        · have h5 : n'.PodCIDR = some cur := by simpa [h4, h3] using h
          simp only [h5]
          simp [h4]

theorem updateAddress_again (net : NetLib) (n n' : NodeInfo) (src : Node)
    (h : n'.Address = (n.updateAddress net src).1.Address) :
    (n'.updateAddress net src).2 = false := by
  dsimp only [NodeInfo.updateAddress] at h ⊢
  cases h1 : chosenIP src with
  | none =>
    simp only [h1] at h ⊢
    have : n'.Address = none := by rw [h]; split <;> simp_all
    simp [this]
  | some s =>
    simp only [h1] at h ⊢
    cases h2 : net.ParseIP s with
    | none =>
      simp only [h2] at h ⊢
      have : n'.Address = none := by rw [h]; split <;> simp_all
      simp [this]
    | some a =>
      simp only [h2] at h ⊢
      by_cases h3 : (!IPEqual (n.Address.getD []) a) = true
      · simp only [h3, if_true] at h
        simp [h, IPEqual_self]
      · have h5 : n'.Address = n.Address := by simpa [h3] using h
        simp only [h5]
        simp [h3]

theorem update_name (net : NetLib) (n : NodeInfo) (src : Node) :
    (n.update net src).1.Name = n.Name := by
  simp [NodeInfo.update, updateAddress_name, updatePodCIDR_name]

theorem update_false (net : NetLib) (n : NodeInfo) (src : Node)
    (h : (n.update net src).2 = false) : (n.update net src).1 = n := by
  simp only [NodeInfo.update, Bool.or_eq_false_iff] at h ⊢
  have h1 := updatePodCIDR_false net n src h.1
  rw [h1] at h ⊢
  exact updateAddress_false net n src h.2

theorem update_true (net : NetLib) (n : NodeInfo) (src : Node)
    (h : (n.update net src).2 = true) :
    (n.update net src).1.PodCIDR ≠ n.PodCIDR ∨ (n.update net src).1.Address ≠ n.Address := by
  simp only [NodeInfo.update, Bool.or_eq_true] at h ⊢
  rcases h with h | h
  · left
    rw [updateAddress_podCIDR]
    exact updatePodCIDR_true net n src h
  · right
    have := updateAddress_true net _ src h
    rwa [updatePodCIDR_address] at this

theorem samePodCIDR_self (x : Option IPNet) : samePodCIDR x x = true := by
  cases x <;> simp [samePodCIDR, IPEqual_self]

theorem sameAddress_self (x : Option (List Nat)) : sameAddress x x = true := by
  cases x <;> simp [sameAddress, IPEqual_self]

theorem updatePodCIDR_true_same (net : NetLib) (n : NodeInfo) (src : Node)
    (h : (n.updatePodCIDR net src).2 = true) :
    samePodCIDR n.PodCIDR (n.updatePodCIDR net src).1.PodCIDR = false := by
  dsimp only [NodeInfo.updatePodCIDR] at h ⊢
  by_cases h1 : src.Spec.PodCIDR = "" <;> cases h2 : net.ParseCIDR src.Spec.PodCIDR <;>
    cases h3 : n.PodCIDR <;> simp [h1, h2, h3, samePodCIDR] at h ⊢
  rename_i ipnet cur
  by_cases h4 : IPEqual ipnet.IP cur.IP = false ∨ ¬cur.Mask = ipnet.Mask
  · simp only [h4, if_true]
    rcases h4 with h4 | h4
    · simp [h4]
    · simp [h4]
  · simp [h4] at h

theorem updateAddress_true_same (net : NetLib) (n : NodeInfo) (src : Node)
    (h : (n.updateAddress net src).2 = true) :
    sameAddress n.Address (n.updateAddress net src).1.Address = false := by
  dsimp only [NodeInfo.updateAddress] at h ⊢
  cases h1 : chosenIP src with
  | none =>
    simp only [h1] at h ⊢
    cases h3 : n.Address <;> simp [h3, sameAddress] at h ⊢
  | some s =>
    simp only [h1] at h ⊢
    cases h2 : net.ParseIP s with
    | none =>
      simp only [h2] at h ⊢
      cases h3 : n.Address <;> simp [h3, sameAddress] at h ⊢
    | some a =>
      simp only [h2] at h ⊢
      by_cases h4 : (!IPEqual (n.Address.getD []) a) = true
      · simp only [h4, if_true]
        cases h3 : n.Address with
        | none => simp [sameAddress]
        | some cur => simpa [sameAddress, h3] using h4
      · simp [h4] at h

theorem update_true_same (net : NetLib) (n : NodeInfo) (src : Node)
    (h : (n.update net src).2 = true) :
    samePodCIDR n.PodCIDR (n.update net src).1.PodCIDR = false ∨
      sameAddress n.Address (n.update net src).1.Address = false := by
  simp only [NodeInfo.update, Bool.or_eq_true] at h ⊢
  rcases h with h | h
  · left
    rw [updateAddress_podCIDR]
    exact updatePodCIDR_true_same net n src h
  · right
    have := updateAddress_true_same net _ src h
    rwa [updatePodCIDR_address] at this

theorem update_again (net : NetLib) (n : NodeInfo) (src : Node) :
    ((n.update net src).1.update net src).2 = false := by
  have h1 : ((n.update net src).1.updatePodCIDR net src).2 = false :=
    updatePodCIDR_again net n _ src (by simp [NodeInfo.update, updateAddress_podCIDR])
  have h2 : ((n.update net src).1.updatePodCIDR net src).1 = (n.update net src).1 :=
    updatePodCIDR_false net _ src h1
  have h3 : ((n.update net src).1.updateAddress net src).2 = false :=
    updateAddress_again net (n.updatePodCIDR net src).1 _ src (by simp [NodeInfo.update])
  show (((n.update net src).1.updatePodCIDR net src).2 ||
    (((n.update net src).1.updatePodCIDR net src).1.updateAddress net src).2) = false
  rw [h2, h1, h3]
  rfl

/-! ## The method `UpdateNode` -/

theorem lookupOrCreate_fields (m : NodeMap) (name : String) :
    (m.lookupOrCreate name).1.mePredicate = m.mePredicate ∧
    (m.lookupOrCreate name).1.ready = m.ready ∧
    (m.lookupOrCreate name).1.version = m.version ∧
    (m.lookupOrCreate name).1.me = m.me := by
  unfold NodeMap.lookupOrCreate
  cases mapGet m.nodes name <;> simp

/-- The result of `UpdateNode` field by field: `c` is the outcome of the lookup, `r` the
outcome of `update` on the object, `b` tells whether self is bound by the call. -/
theorem UpdateNode_eq (net : NetLib) (m : NodeMap) (src : Node) :
    m.UpdateNode net src =
      ({ mePredicate := m.mePredicate
         ready := m.ready
         nodes := (m.lookupOrCreate src.Name).1.nodes
         version :=
           if ((m.lookupOrCreate src.Name).2.2 ||
               ((deref (m.lookupOrCreate src.Name).1.heap
                 (m.lookupOrCreate src.Name).2.1).update net src).2 ||
               (decide (m.me = none) && m.mePredicate src)) = true
           then (m.version + 1) % 2 ^ 64 else m.version
         me := if (decide (m.me = none) && m.mePredicate src) = true
           then some (m.lookupOrCreate src.Name).2.1 else m.me
         heap := (m.lookupOrCreate src.Name).1.heap.set (m.lookupOrCreate src.Name).2.1
           ((deref (m.lookupOrCreate src.Name).1.heap
             (m.lookupOrCreate src.Name).2.1).update net src).1 },
       (m.lookupOrCreate src.Name).2.2 ||
         ((deref (m.lookupOrCreate src.Name).1.heap
           (m.lookupOrCreate src.Name).2.1).update net src).2 ||
         (decide (m.me = none) && m.mePredicate src)) := by
  obtain ⟨hp, hr, hv, hm⟩ := lookupOrCreate_fields m src.Name
  unfold NodeMap.UpdateNode
  dsimp only
  rw [← hp, ← hr, ← hv, ← hm]
  generalize m.lookupOrCreate src.Name = c
  obtain ⟨m1, a, created⟩ := c
  dsimp only
  generalize (deref m1.heap a).update net src = r
  obtain ⟨n1, ch⟩ := r
  cases hme : m1.me <;> cases hpr : m1.mePredicate src <;> cases created <;> cases ch <;>
    simp [hme, hpr]

/-! ## The map operations -/

theorem mapGet_eq_none {l : List (String × Nat)} {k : String} :
    mapGet l k = none ↔ k ∉ l.map (fun p => p.1) := by
  induction l with
  | nil => simp [mapGet]
  | cons p l ih =>
    simp only [mapGet, List.find?_cons, List.map_cons, List.mem_cons, not_or] at ih ⊢
    by_cases h : p.1 = k
    · simp [h]
    · simp only [h, decide_False]
      rw [ih]
      simp [Ne.symm h]

theorem mem_of_mapGet {l : List (String × Nat)} {k : String} {a : Nat}
    (h : mapGet l k = some a) : (k, a) ∈ l := by
  induction l with
  | nil => simp [mapGet] at h
  | cons p l ih =>
    simp only [mapGet, List.find?_cons] at h ih
    by_cases hk : p.1 = k
    · simp only [hk, decide_True, Option.map_some', Option.some.injEq] at h
      rw [← hk, ← h]
      exact List.mem_cons_self _ _
    · simp only [hk, decide_False] at h
      exact List.mem_cons_of_mem _ (ih h)

theorem mapGet_of_mem {l : List (String × Nat)} {k : String} {a : Nat}
    (hn : (l.map (fun p => p.1)).Nodup) (h : (k, a) ∈ l) : mapGet l k = some a := by
  induction l with
  | nil => simp at h
  | cons p l ih =>
    simp only [List.map_cons, List.nodup_cons] at hn
    simp only [mapGet, List.find?_cons] at ih ⊢
    rcases List.mem_cons.mp h with h | h
    · subst h
      simp
    · have hk : p.1 ≠ k := by
        intro e
        apply hn.1
        rw [e]
        exact List.mem_map.mpr ⟨(k, a), h, rfl⟩
      simp only [hk, decide_False]
      exact ih hn.2 h

theorem mapGet_mapDelete_self (l : List (String × Nat)) (k : String) :
    mapGet (mapDelete l k) k = none := by
  rw [mapGet_eq_none]
  simp [mapDelete]

theorem mapGet_mapDelete_ne (l : List (String × Nat)) {k k' : String} (h : k' ≠ k) :
    mapGet (mapDelete l k) k' = mapGet l k' := by
  induction l with
  | nil => rfl
  | cons p l ih =>
    by_cases h1 : p.1 = k
    · have h2 : ¬ p.1 = k' := by rw [h1]; exact Ne.symm h
      have e1 : mapDelete (p :: l) k = mapDelete l k := by simp [mapDelete, h1]
      have e2 : mapGet (p :: l) k' = mapGet l k' := by simp [mapGet, h2]
      rw [e1, e2, ih]
    · have e1 : mapDelete (p :: l) k = p :: mapDelete l k := by simp [mapDelete, h1]
      rw [e1]
      by_cases h2 : p.1 = k'
      · simp [mapGet, h2]
      · have e2 : ∀ t, mapGet (p :: t) k' = mapGet t k' := by
          intro t
          simp [mapGet, h2]
        rw [e2, e2, ih]

theorem mapDelete_of_mapGet_none {l : List (String × Nat)} {k : String}
    (h : mapGet l k = none) : mapDelete l k = l := by
  rw [mapGet_eq_none] at h
  simp only [mapDelete, List.filter_eq_self]
  intro p hp
  simp only [ne_eq, decide_eq_true_eq]
  intro e
  exact h (List.mem_map.mpr ⟨p, hp, e⟩)

theorem mem_mapDelete {l : List (String × Nat)} {k : String} {p : String × Nat} :
    p ∈ mapDelete l k ↔ p ∈ l ∧ p.1 ≠ k := by
  simp [mapDelete]

theorem mapGet_mapSet_self (l : List (String × Nat)) (k : String) (a : Nat) :
    mapGet (mapSet l k a) k = some a := by
  have h := mapGet_mapDelete_self l k
  simp only [mapGet, mapSet, List.find?_append] at h ⊢
  have h2 : List.find? (fun p => decide (p.1 = k)) (mapDelete l k) = none := by
    cases h3 : List.find? (fun p => decide (p.1 = k)) (mapDelete l k) with
    | none => rfl
    | some q => simp [h3] at h
  simp [h2]

theorem mapGet_mapSet_ne (l : List (String × Nat)) {k k' : String} (a : Nat) (h : k' ≠ k) :
    mapGet (mapSet l k a) k' = mapGet l k' := by
  have h1 := mapGet_mapDelete_ne l h
  simp only [mapGet, mapSet, List.find?_append] at h1 ⊢
  rw [← h1]
  cases List.find? (fun p => decide (p.1 = k')) (mapDelete l k) with
  | none => simp [Ne.symm h]
  | some q => simp

/-! ## The heap -/

theorem deref_set_self {heap : List NodeInfo} {a : Nat} (x : NodeInfo) (h : a < heap.length) :
    deref (heap.set a x) a = x := by
  simp [deref, List.getD_eq_getElem?_getD, List.getElem?_set, h]

theorem deref_set_ne (heap : List NodeInfo) {a b : Nat} (x : NodeInfo) (h : a ≠ b) :
    deref (heap.set a x) b = deref heap b := by
  simp [deref, List.getD_eq_getElem?_getD, List.getElem?_set, h]

theorem deref_append_lt {heap : List NodeInfo} (l : List NodeInfo) {b : Nat}
    (h : b < heap.length) : deref (heap ++ l) b = deref heap b := by
  simp [deref, List.getD_eq_getElem?_getD, List.getElem?_append_left h]

theorem deref_append_length (heap : List NodeInfo) (x : NodeInfo) :
    deref (heap ++ [x]) heap.length = x := by
  simp [deref, List.getD_eq_getElem?_getD]

theorem set_deref_self (heap : List NodeInfo) (a : Nat) :
    heap.set a (deref heap a) = heap := by
  apply List.ext_getElem?
  intro i
  by_cases h : a = i
  · subst h
    by_cases h2 : a < heap.length
    · simp [deref, List.getD_eq_getElem?_getD, List.getElem?_set, h2]
    · simp [List.getElem?_set, h2, Nat.le_of_not_lt h2]
  · simp [List.getElem?_set, h]

/-! ## The two cases of the lookup in `UpdateNode` -/

theorem lookupOrCreate_found {m : NodeMap} {name : String} {a : Nat}
    (h : mapGet m.nodes name = some a) : m.lookupOrCreate name = (m, a, false) := by
  simp [NodeMap.lookupOrCreate, h]

theorem lookupOrCreate_fresh {m : NodeMap} {name : String}
    (h : mapGet m.nodes name = none) :
    m.lookupOrCreate name =
      ({ m with heap := m.heap ++ [{ Name := name, Address := none, PodCIDR := none }],
                nodes := m.nodes ++ [(name, m.heap.length)] }, m.heap.length, true) := by
  simp [NodeMap.lookupOrCreate, h, mapSet, mapDelete_of_mapGet_none h]

/-- The state after `UpdateNode` when the name has an object. -/
theorem UpdateNode_found (net : NetLib) {m : NodeMap} {src : Node} {a : Nat}
    (h : mapGet m.nodes src.Name = some a) :
    m.UpdateNode net src =
      ({ mePredicate := m.mePredicate
         ready := m.ready
         nodes := m.nodes
         version :=
           if (((deref m.heap a).update net src).2 ||
               (decide (m.me = none) && m.mePredicate src)) = true
           then (m.version + 1) % 2 ^ 64 else m.version
         me := if (decide (m.me = none) && m.mePredicate src) = true then some a else m.me
         heap := m.heap.set a ((deref m.heap a).update net src).1 },
       ((deref m.heap a).update net src).2 ||
         (decide (m.me = none) && m.mePredicate src)) := by
  rw [UpdateNode_eq, lookupOrCreate_found h]
  simp

/-- The state after `UpdateNode` when the name has no object. -/
theorem UpdateNode_fresh (net : NetLib) {m : NodeMap} {src : Node}
    (h : mapGet m.nodes src.Name = none) :
    m.UpdateNode net src =
      ({ mePredicate := m.mePredicate
         ready := m.ready
         nodes := m.nodes ++ [(src.Name, m.heap.length)]
         version := (m.version + 1) % 2 ^ 64
         me := if (decide (m.me = none) && m.mePredicate src) = true
           then some m.heap.length else m.me
         heap := m.heap ++
           [((NodeInfo.mk src.Name none none).update net src).1] },
       true) := by
  rw [UpdateNode_eq, lookupOrCreate_fresh h]
  simp [deref_append_length]

/-! ## The representation invariant is kept -/

theorem WF_NewNodeMap (p : Node → Bool) : WF (NewNodeMap p) := by
  refine ⟨?_, ?_, ?_, ?_, ?_, ?_⟩ <;> simp [NewNodeMap]

theorem WF_MarkReady {m : NodeMap} (h : WF m) : WF m.MarkReady :=
  ⟨h.version_lt, h.keys_nodup, h.addrs_nodup, h.addr_valid, h.name_eq, h.me_valid⟩

theorem WF_RemoveNode {m : NodeMap} (node : Node) (h : WF m) : WF (m.RemoveNode node) := by
  have hs : (mapDelete m.nodes node.Name).Sublist m.nodes := List.filter_sublist _
  refine ⟨?_, ?_, ?_, ?_, ?_, h.me_valid⟩
  · exact Nat.mod_lt _ (by norm_num)
  · exact h.keys_nodup.sublist (hs.map _)
  · exact h.addrs_nodup.sublist (hs.map _)
  · intro p hp
    exact h.addr_valid p (hs.subset hp)
  · intro p hp
    exact h.name_eq p (hs.subset hp)

theorem WF_UpdateNode (net : NetLib) {m : NodeMap} (src : Node) (h : WF m) :
    WF (m.UpdateNode net src).1 := by
  cases hg : mapGet m.nodes src.Name with
  | some a =>
    rw [UpdateNode_found net hg]
    have ha : a < m.heap.length := h.addr_valid _ (mem_of_mapGet hg)
    refine ⟨?_, h.keys_nodup, h.addrs_nodup, ?_, ?_, ?_⟩
    · dsimp only
      split
      · exact Nat.mod_lt _ (by norm_num)
      · exact h.version_lt
    · intro p hp
      simpa using h.addr_valid p hp
    · intro p hp
      dsimp only at hp ⊢
      by_cases e : a = p.2
      · rw [← e, deref_set_self _ ha, update_name, e]
        exact h.name_eq p hp
      · rw [deref_set_ne _ _ e]
        exact h.name_eq p hp
    · intro b hb
      dsimp only at hb ⊢
      rw [List.length_set]
      split at hb
      · cases hb
        exact ha
      · exact h.me_valid b hb
  | none =>
    rw [UpdateNode_fresh net hg]
    refine ⟨Nat.mod_lt _ (by norm_num), ?_, ?_, ?_, ?_, ?_⟩
    · dsimp only
      rw [List.map_append, List.nodup_append]
      refine ⟨h.keys_nodup, by simp, ?_⟩
      intro k hk hk2
      simp only [List.map_cons, List.map_nil, List.mem_singleton] at hk2
      subst hk2
      exact (mapGet_eq_none.mp hg) hk
    · dsimp only
      rw [List.map_append, List.nodup_append]
      refine ⟨h.addrs_nodup, by simp, ?_⟩
      intro b hb hb2
      simp only [List.map_cons, List.map_nil, List.mem_singleton] at hb2
      subst hb2
      obtain ⟨p, hp, e⟩ := List.mem_map.mp hb
      have := h.addr_valid p hp
      omega
    · intro p hp
      dsimp only at hp ⊢
      rw [List.length_append]
      rcases List.mem_append.mp hp with hp | hp
      · have := h.addr_valid p hp
        omega
      · simp only [List.mem_singleton] at hp
        subst hp
        simp
    · intro p hp
      dsimp only at hp ⊢
      rcases List.mem_append.mp hp with hp | hp
      · rw [deref_append_lt _ (h.addr_valid p hp)]
        exact h.name_eq p hp
      · simp only [List.mem_singleton] at hp
        subst hp
        rw [deref_append_length, update_name]
    · intro b hb
      dsimp only at hb ⊢
      rw [List.length_append]
      split at hb
      · cases hb
        simp
      · have := h.me_valid b hb
        omega

theorem WF_step (net : NetLib) {m : NodeMap} (o : Op) (h : WF m) : WF (step net m o) := by
  cases o with
  | updateNode src => exact WF_UpdateNode net src h
  | removeNode node => exact WF_RemoveNode node h
  | markReady => exact WF_MarkReady h
  | isReady => exact h
  | isVersion v => exact h
  | snapshot => exact h

theorem WF_run (net : NetLib) (ops : List Op) {m : NodeMap} (h : WF m) :
    WF (run net m ops) := by
  induction ops generalizing m with
  | nil => exact h
  | cons o ops ih => exact ih (WF_step net o h)

theorem WF_of_Reachable {net : NetLib} {m : NodeMap} (h : Reachable net m) : WF m := by
  obtain ⟨p, ops, rfl⟩ := h
  exact WF_run net ops (WF_NewNodeMap p)

theorem run_append (net : NetLib) (m : NodeMap) (ops ops' : List Op) :
    run net m (ops ++ ops') = run net (run net m ops) ops' := by
  simp [run, List.foldl_append]

theorem Reachable_run {net : NetLib} {m : NodeMap} (h : Reachable net m) (ops : List Op) :
    Reachable net (run net m ops) := by
  obtain ⟨p, ops0, rfl⟩ := h
  exact ⟨p, ops0 ++ ops, (run_append net _ ops0 ops).symm⟩

/-! ## Claims on `UpdateNode` and `Snapshot` -/

theorem UpdateNode_version (net : NetLib) (m : NodeMap) (src : Node) :
    (m.UpdateNode net src).1.version =
      if (m.UpdateNode net src).2 = true then (m.version + 1) % 2 ^ 64 else m.version := by
  rw [UpdateNode_eq]

/-- C1: `UpdateNode` advances the version counter by exactly one, as a 64-bit unsigned
increment, when it returns true, and leaves the version counter unchanged when it returns
false. -/
theorem C1_UpdateNode_version (net : NetLib) (m : NodeMap) (src : Node) :
    (m.UpdateNode net src).1.version =
      if (m.UpdateNode net src).2 = true then (m.version + 1) % 2 ^ 64 else m.version :=
  UpdateNode_version net m src

theorem UpdateNode_false_eq (net : NetLib) (m : NodeMap) (src : Node)
    (h : (m.UpdateNode net src).2 = false) : (m.UpdateNode net src).1 = m := by
  cases hg : mapGet m.nodes src.Name with
  | none => simp [UpdateNode_fresh net hg] at h
  | some a =>
    rw [UpdateNode_found net hg] at h ⊢
    simp only [Bool.or_eq_false_iff] at h
    have h1 := update_false net _ src h.1
    simp only [h.1, h.2, h1, set_deref_self]
    simp

/-- Removing an untracked name `n` times adds `n` to the version, modulo `2 ^ 64`, and
changes nothing else. -/
theorem run_replicate_removeNode (net : NetLib) (node : Node) (n : Nat) (m : NodeMap)
    (hv : m.version < 2 ^ 64) (hn : mapGet m.nodes node.Name = none) :
    run net m (List.replicate n (.removeNode node)) =
      { m with version := (m.version + n) % 2 ^ 64 } := by
  induction n generalizing m with
  | zero =>
    show m = { m with version := (m.version + 0) % 2 ^ 64 }
    rw [Nat.add_zero, Nat.mod_eq_of_lt hv]
  | succ n ih =>
    have h1 : m.RemoveNode node = { m with version := (m.version + 1) % 2 ^ 64 } := by
      simp only [NodeMap.RemoveNode, mapDelete_of_mapGet_none hn]
    show run net (m.RemoveNode node) (List.replicate n (.removeNode node)) = _
    have hv1 : (m.version + 1) % 2 ^ 64 < 2 ^ 64 := Nat.mod_lt _ (by norm_num)
    have e : ((m.version + 1) % 2 ^ 64 + n) % 2 ^ 64 = (m.version + (n + 1)) % 2 ^ 64 := by
      omega
    rw [h1, ih { m with version := (m.version + 1) % 2 ^ 64 } hv1 hn]
    simp only [e]

/-- The state `stateMax` is reached from `NewNodeMap`: the operations of `stateAB`, then
`2 ^ 64 - 3` calls of `RemoveNode` for a name that is not tracked. -/
theorem stateMax_Reachable : Reachable ipv4Net stateMax := by
  refine ⟨isNodeA, [.updateNode nodeA, .updateNode nodeB, .markReady] ++
    List.replicate (2 ^ 64 - 3) (.removeNode nodeC), ?_⟩
  rw [run_append]
  show stateMax = run ipv4Net stateAB _
  rw [run_replicate_removeNode ipv4Net nodeC _ stateAB (by decide) (by decide)]
  have e : (stateAB.version + (2 ^ 64 - 3)) % 2 ^ 64 = 2 ^ 64 - 1 := by decide
  rw [e]
  rfl

theorem stateMax_WF : WF stateMax :=
  WF_of_Reachable stateMax_Reachable

/-- C2, as stated, fails: in the reachable state `stateMax`, whose version is `2 ^ 64 - 1`, `UpdateNode` for a name
that is not tracked returns true and the version wraps to 0, so it does not increase. -/
theorem C2_counterexample :
    Reachable ipv4Net stateMax ∧ (stateMax.UpdateNode ipv4Net nodeC).2 = true ∧
      stateMax.version = 2 ^ 64 - 1 ∧ (stateMax.UpdateNode ipv4Net nodeC).1.version = 0 ∧
      ¬ stateMax.version < (stateMax.UpdateNode ipv4Net nodeC).1.version :=
  ⟨stateMax_Reachable, by decide, by decide, by decide, by decide⟩

/-- C2, amended: `UpdateNode` returns true exactly when the call created the object of the
record's name, or changed the subnet or the address of that object by value, or bound a
self that was unresolved. When it returns true the version is incremented modulo `2 ^ 64`,
which is a strict increase unless the version was `2 ^ 64 - 1`. When it returns false the
state, so the map, the objects and the self reference, is the one before the call. -/
theorem C2_UpdateNode_changed (net : NetLib) (m : NodeMap) (src : Node) (h : WF m) :
    ((m.UpdateNode net src).2 = true ↔
      (mapGet m.nodes src.Name = none ∨
       (∃ a, mapGet m.nodes src.Name = some a ∧
          (samePodCIDR (deref m.heap a).PodCIDR
              (deref (m.UpdateNode net src).1.heap a).PodCIDR = false ∨
           sameAddress (deref m.heap a).Address
              (deref (m.UpdateNode net src).1.heap a).Address = false)) ∨
       (m.me = none ∧ (m.UpdateNode net src).1.me ≠ none))) ∧
    ((m.UpdateNode net src).2 = true →
      (m.UpdateNode net src).1.version = (m.version + 1) % 2 ^ 64 ∧
      (m.version ≠ 2 ^ 64 - 1 → m.version < (m.UpdateNode net src).1.version)) ∧
    ((m.UpdateNode net src).2 = false → (m.UpdateNode net src).1 = m) := by
  refine ⟨⟨?_, ?_⟩, ?_, UpdateNode_false_eq net m src⟩
  · intro ht
    cases hg : mapGet m.nodes src.Name with
    | none => exact Or.inl rfl
    | some a =>
      right
      have ha : a < m.heap.length := h.addr_valid _ (mem_of_mapGet hg)
      rw [UpdateNode_found net hg] at ht ⊢
      simp only [Bool.or_eq_true] at ht
      rcases ht with h1 | h1
      · left
        refine ⟨a, rfl, ?_⟩
        simp only [deref_set_self _ ha]
        exact update_true_same net _ src h1
      · right
        simp only [Bool.and_eq_true, decide_eq_true_eq] at h1
        simp [h1]
  · intro hc
    cases hf : (m.UpdateNode net src).2 with
    | true => rfl
    | false =>
      exfalso
      have he := UpdateNode_false_eq net m src hf
      rw [he] at hc
      rcases hc with h1 | ⟨a, _, h1⟩ | ⟨h1, h2⟩
      · rw [UpdateNode_fresh net h1] at hf
        simp at hf
      · simp [samePodCIDR_self, sameAddress_self] at h1
      · exact h2 h1
  · intro ht
    rw [UpdateNode_version, if_pos ht]
    refine ⟨rfl, fun hv => ?_⟩
    have := h.version_lt
    rw [Nat.mod_eq_of_lt (by omega)]
    omega

theorem stateAB_WF : WF stateAB :=
  WF_run _ _ (WF_NewNodeMap _)

/-- Witness of C2, amended: in the well-formed state `stateAB`, `UpdateNode` for the record
of `a` it already holds returns false and leaves the state as it is. -/
theorem C2_UpdateNode_changed_witness :
    WF stateAB ∧ (stateAB.UpdateNode ipv4Net nodeA).2 = false ∧
      (stateAB.UpdateNode ipv4Net nodeA).1 = stateAB :=
  ⟨stateAB_WF, by decide,
    (C2_UpdateNode_changed ipv4Net stateAB nodeA stateAB_WF).2.2 (by decide)⟩

theorem Snapshot_of_ready {m : NodeMap} (hr : m.ready = true) :
    m.Snapshot =
      (some (match m.me with
        | some a => deref m.heap a
        | none => NodeInfo.zero),
       m.nodes.map (fun p => deref m.heap p.2), m.version) := by
  simp [NodeMap.Snapshot, hr]

theorem Snapshot_of_not_ready {m : NodeMap} (hr : m.ready = false) :
    m.Snapshot = (none, [], 0) := by
  simp [NodeMap.Snapshot, hr]

theorem map_name_deref {m : NodeMap} (h : WF m) :
    (m.nodes.map (fun p => deref m.heap p.2)).map (fun e => e.Name) =
      m.nodes.map (fun p => p.1) := by
  rw [List.map_map]
  apply List.map_congr_left
  intro p hp
  exact h.name_eq p hp

/-- C3: in a ready state `Snapshot` returns a present self value, a node sequence and a
version. The self value is the object `me` points to, or the zero-valued entry (empty name,
no address, no subnet) when self is unresolved. The node sequence has as many elements as
there are tracked names, has no element twice, and its elements are exactly the objects of
the tracked names. The version is the current version. The result is not the unready
sentinel, whatever is tracked. -/
theorem C3_Snapshot_ready (m : NodeMap) (h : WF m) (hr : m.ready = true) :
    ∃ self nodes, m.Snapshot = (some self, nodes, m.version) ∧
      (∀ a, m.me = some a → self = deref m.heap a) ∧
      (m.me = none → self = { Name := "", Address := none, PodCIDR := none }) ∧
      nodes.length = (m.nodes.map (fun p => p.1)).length ∧ nodes.Nodup ∧
      (∀ e, e ∈ nodes ↔ ∃ k a, mapGet m.nodes k = some a ∧ e = deref m.heap a) ∧
      m.Snapshot ≠ (none, [], 0) := by
  refine ⟨_, _, Snapshot_of_ready hr, ?_, ?_, ?_, ?_, ?_, ?_⟩
  · intro a ha
    simp [ha]
  · intro ha
    simp [ha, NodeInfo.zero]
  · simp
  · apply List.Nodup.of_map (fun e => e.Name)
    rw [map_name_deref h]
    exact h.keys_nodup
  · intro e
    simp only [List.mem_map]
    constructor
    · rintro ⟨p, hp, rfl⟩
      exact ⟨p.1, p.2, mapGet_of_mem h.keys_nodup hp, rfl⟩
    · rintro ⟨k, a, hk, rfl⟩
      exact ⟨(k, a), mem_of_mapGet hk, rfl⟩
  · rw [Snapshot_of_ready hr]
    simp

/-- Witness of C3: the snapshot of the ready state `stateAB`, which tracks `a` (self) and
`b`. -/
theorem C3_Snapshot_ready_witness :
    WF stateAB ∧ stateAB.ready = true ∧
      ∃ self nodes, stateAB.Snapshot = (some self, nodes, stateAB.version) ∧
        (∀ a, stateAB.me = some a → self = deref stateAB.heap a) ∧
        (stateAB.me = none → self = { Name := "", Address := none, PodCIDR := none }) ∧
        nodes.length = (stateAB.nodes.map (fun p => p.1)).length ∧ nodes.Nodup ∧
        (∀ e, e ∈ nodes ↔ ∃ k a, mapGet stateAB.nodes k = some a ∧ e = deref stateAB.heap a) ∧
        stateAB.Snapshot ≠ (none, [], 0) :=
  ⟨stateAB_WF, by decide, C3_Snapshot_ready stateAB stateAB_WF (by decide)⟩

/-! ## Readiness -/

theorem UpdateNode_ready (net : NetLib) (m : NodeMap) (src : Node) :
    (m.UpdateNode net src).1.ready = m.ready := by
  rw [UpdateNode_eq]

theorem UpdateNode_mePredicate (net : NetLib) (m : NodeMap) (src : Node) :
    (m.UpdateNode net src).1.mePredicate = m.mePredicate := by
  rw [UpdateNode_eq]

theorem step_ready_of_not_markReady (net : NetLib) (m : NodeMap) {o : Op}
    (h : o.isMarkReady = false) : (step net m o).ready = m.ready := by
  cases o with
  | updateNode src => exact UpdateNode_ready net m src
  | removeNode node => rfl
  | markReady => simp [Op.isMarkReady] at h
  | isReady => rfl
  | isVersion v => rfl
  | snapshot => rfl

theorem run_ready_of_not_markReady (net : NetLib) (ops : List Op) (m : NodeMap)
    (h : ∀ o ∈ ops, o.isMarkReady = false) : (run net m ops).ready = m.ready := by
  induction ops generalizing m with
  | nil => rfl
  | cons o ops ih =>
    have h1 := ih (step net m o) (fun o' ho' => h o' (List.mem_cons_of_mem _ ho'))
    rw [step_ready_of_not_markReady net m (h o (List.mem_cons_self _ _))] at h1
    exact h1

/-- C4: in a state built by `NewNodeMap` on which `MarkReady` has not been called, whatever
sequence of the other public operations (`UpdateNode` and `RemoveNode` among them) came
before, the state is not ready and `Snapshot` returns the unready sentinel: no self, an
empty node sequence and version 0. -/
theorem C4_Snapshot_unready (net : NetLib) (p : Node → Bool) (ops : List Op)
    (h : ∀ o ∈ ops, o.isMarkReady = false) :
    (run net (NewNodeMap p) ops).IsReady = false ∧
      (run net (NewNodeMap p) ops).Snapshot = (none, [], 0) := by
  have hr : (run net (NewNodeMap p) ops).ready = false :=
    run_ready_of_not_markReady net ops (NewNodeMap p) h
  exact ⟨hr, Snapshot_of_not_ready hr⟩

/-- Witness of C4: after three updates and a removal, with a version that is not 0 and one
name tracked, the snapshot is the unready sentinel. -/
theorem C4_Snapshot_unready_witness :
    (∀ o ∈ [Op.updateNode nodeA, Op.updateNode nodeB, Op.removeNode nodeA, Op.updateNode nodeC],
        o.isMarkReady = false) ∧
      (run ipv4Net (NewNodeMap isNodeA)
        [.updateNode nodeA, .updateNode nodeB, .removeNode nodeA, .updateNode nodeC]).version = 4 ∧
      (run ipv4Net (NewNodeMap isNodeA)
        [.updateNode nodeA, .updateNode nodeB, .removeNode nodeA, .updateNode nodeC]).Snapshot
        = (none, [], 0) :=
  ⟨by decide, by decide,
    (C4_Snapshot_unready ipv4Net isNodeA
      [.updateNode nodeA, .updateNode nodeB, .removeNode nodeA, .updateNode nodeC]
      (by decide)).2⟩

/-! ## `RemoveNode` -/

theorem mapGet_append_ne (l : List (String × Nat)) {k k' : String} (a : Nat) (h : k' ≠ k) :
    mapGet (l ++ [(k, a)]) k' = mapGet l k' := by
  simp only [mapGet, List.find?_append]
  cases List.find? (fun p => decide (p.1 = k')) l with
  | none => simp [Ne.symm h]
  | some q => simp

theorem UpdateNode_mapGet_ne (net : NetLib) (m : NodeMap) {src : Node} {k : String}
    (h : k ≠ src.Name) : mapGet (m.UpdateNode net src).1.nodes k = mapGet m.nodes k := by
  cases hg : mapGet m.nodes src.Name with
  | none =>
    rw [UpdateNode_fresh net hg]
    exact mapGet_append_ne _ _ h
  | some a => rw [UpdateNode_found net hg]

theorem step_mapGet_none (net : NetLib) (m : NodeMap) {o : Op} {name : String}
    (ho : o.updates name = false) (h : mapGet m.nodes name = none) :
    mapGet (step net m o).nodes name = none := by
  cases o with
  | updateNode src =>
    have hne : name ≠ src.Name := by
      intro e
      simp [Op.updates, e] at ho
    show mapGet (m.UpdateNode net src).1.nodes name = none
    rw [UpdateNode_mapGet_ne net m hne]
    exact h
  | removeNode node =>
    show mapGet (mapDelete m.nodes node.Name) name = none
    by_cases e : name = node.Name
    · rw [e]
      exact mapGet_mapDelete_self _ _
    · rw [mapGet_mapDelete_ne _ e]
      exact h
  | markReady => exact h
  | isReady => exact h
  | isVersion v => exact h
  | snapshot => exact h

theorem run_mapGet_none (net : NetLib) (ops : List Op) (m : NodeMap) {name : String}
    (ho : ∀ o ∈ ops, o.updates name = false) (h : mapGet m.nodes name = none) :
    mapGet (run net m ops).nodes name = none := by
  induction ops generalizing m with
  | nil => exact h
  | cons o ops ih =>
    exact ih (step net m o) (fun o' ho' => ho o' (List.mem_cons_of_mem _ ho'))
      (step_mapGet_none net m (ho o (List.mem_cons_self _ _)) h)

theorem Snapshot_name_ne {m : NodeMap} (h : WF m) {name : String}
    (hn : mapGet m.nodes name = none) : ∀ e ∈ m.Snapshot.2.1, e.Name ≠ name := by
  intro e he
  cases hr : m.ready with
  | false => simp [Snapshot_of_not_ready hr] at he
  | true =>
    rw [Snapshot_of_ready hr] at he
    obtain ⟨p, hp, rfl⟩ := List.mem_map.mp he
    rw [h.name_eq p hp]
    intro e2
    exact (mapGet_eq_none.mp hn) (List.mem_map.mpr ⟨p, hp, e2⟩)

/-- C5, as stated, fails: in the reachable state `stateMax`, whose version is `2 ^ 64 - 1`, `RemoveNode` of the
tracked name `a` makes the version 0, which is not greater than the version before. -/
theorem C5_counterexample :
    Reachable ipv4Net stateMax ∧ mapGet stateMax.nodes nodeA.Name = some 0 ∧
      stateMax.version = 2 ^ 64 - 1 ∧ (stateMax.RemoveNode nodeA).version = 0 ∧
      ¬ stateMax.version < (stateMax.RemoveNode nodeA).version :=
  ⟨stateMax_Reachable, by decide, by decide, by decide, by decide⟩

/-- C5, amended: when a name is tracked (a ready `Snapshot` holds an entry of that name),
`RemoveNode` of the name leaves the map without an entry for it, and after any further
public operations none of which is an `UpdateNode` for that name the map still has none and
the node sequence of `Snapshot` has no entry of that name. The version after the call is
the version before plus one modulo `2 ^ 64`: strictly greater unless the version before was
`2 ^ 64 - 1`. -/
theorem C5_RemoveNode_tracked (net : NetLib) (m : NodeMap) (node : Node) (a : Nat)
    (h : WF m) (ht : mapGet m.nodes node.Name = some a) :
    (m.ready = true → ∃ e ∈ m.Snapshot.2.1, e.Name = node.Name) ∧
    mapGet (m.RemoveNode node).nodes node.Name = none ∧
    (∀ ops : List Op, (∀ o ∈ ops, o.updates node.Name = false) →
      mapGet (run net (m.RemoveNode node) ops).nodes node.Name = none ∧
      ∀ e ∈ (run net (m.RemoveNode node) ops).Snapshot.2.1, e.Name ≠ node.Name) ∧
    (m.RemoveNode node).version = (m.version + 1) % 2 ^ 64 ∧
    (m.version ≠ 2 ^ 64 - 1 → m.version < (m.RemoveNode node).version) := by
  have hdel : mapGet (m.RemoveNode node).nodes node.Name = none :=
    mapGet_mapDelete_self _ _
  refine ⟨?_, hdel, ?_, rfl, ?_⟩
  · intro hr
    rw [Snapshot_of_ready hr]
    exact ⟨deref m.heap a, List.mem_map.mpr ⟨(node.Name, a), mem_of_mapGet ht, rfl⟩,
      h.name_eq _ (mem_of_mapGet ht)⟩
  · intro ops ho
    have hn := run_mapGet_none net ops (m.RemoveNode node) ho hdel
    exact ⟨hn, Snapshot_name_ne (WF_run net ops (WF_RemoveNode node h)) hn⟩
  · intro hv
    have := h.version_lt
    show m.version < (m.version + 1) % 2 ^ 64
    rw [Nat.mod_eq_of_lt (by omega)]
    omega

/-- Witness of C5, amended: in `stateAB`, which tracks `a`, after `RemoveNode` of `a` and an
update of `b` the snapshot has no entry named `a`, and the version went from 2 to 3. -/
theorem C5_RemoveNode_tracked_witness :
    WF stateAB ∧ mapGet stateAB.nodes nodeA.Name = some 0 ∧
      (∀ e ∈ (run ipv4Net (stateAB.RemoveNode nodeA) [.updateNode nodeB, .snapshot]).Snapshot.2.1,
        e.Name ≠ nodeA.Name) ∧
      stateAB.version < (stateAB.RemoveNode nodeA).version :=
  ⟨stateAB_WF, by decide,
    ((C5_RemoveNode_tracked ipv4Net stateAB nodeA 0 stateAB_WF (by decide)).2.2.1
      [.updateNode nodeB, .snapshot] (by decide)).2,
    (C5_RemoveNode_tracked ipv4Net stateAB nodeA 0 stateAB_WF (by decide)).2.2.2.2 (by decide)⟩

/-- C6, as stated, fails: in the reachable state `stateMax`, whose version is `2 ^ 64 - 1`, `RemoveNode` of a name
that is not tracked makes the version 0, so the version does not increase. -/
theorem C6_counterexample :
    Reachable ipv4Net stateMax ∧ mapGet stateMax.nodes nodeC.Name = none ∧
      stateMax.version = 2 ^ 64 - 1 ∧ (stateMax.RemoveNode nodeC).version = 0 ∧
      ¬ stateMax.version < (stateMax.RemoveNode nodeC).version :=
  ⟨stateMax_Reachable, by decide, by decide, by decide, by decide⟩

/-- C6, amended: `RemoveNode` changes nothing except the version and the map entry of the
name. The readiness flag, the predicate, the objects, the entry of every other name and the
self reference are unchanged, the self reference also when the removed node is self, so
`Snapshot` returns the same self value before and after. When the name is not tracked the
map is unchanged. The version is incremented modulo `2 ^ 64`: it increases unless it was
`2 ^ 64 - 1`, where it wraps to 0. -/
theorem C6_RemoveNode_frame (m : NodeMap) (node : Node) :
    (m.RemoveNode node).ready = m.ready ∧
    (m.RemoveNode node).mePredicate = m.mePredicate ∧
    (m.RemoveNode node).heap = m.heap ∧
    (m.RemoveNode node).me = m.me ∧
    (m.RemoveNode node).Snapshot.1 = m.Snapshot.1 ∧
    (∀ k, k ≠ node.Name → mapGet (m.RemoveNode node).nodes k = mapGet m.nodes k) ∧
    (mapGet m.nodes node.Name = none → (m.RemoveNode node).nodes = m.nodes) ∧
    (m.RemoveNode node).version = (m.version + 1) % 2 ^ 64 ∧
    (m.version < 2 ^ 64 - 1 → m.version < (m.RemoveNode node).version) ∧
    (m.version = 2 ^ 64 - 1 → (m.RemoveNode node).version = 0) := by
  refine ⟨rfl, rfl, rfl, rfl, ?_, ?_, ?_, rfl, ?_, ?_⟩
  · cases hr : m.ready with
    | false =>
      have hr2 : (m.RemoveNode node).ready = false := hr
      rw [Snapshot_of_not_ready hr, Snapshot_of_not_ready hr2]
    | true =>
      have hr2 : (m.RemoveNode node).ready = true := hr
      rw [Snapshot_of_ready hr, Snapshot_of_ready hr2]
      rfl
  · intro k hk
    exact mapGet_mapDelete_ne _ hk
  · intro hn
    exact mapDelete_of_mapGet_none hn
  · intro hv
    show m.version < (m.version + 1) % 2 ^ 64
    rw [Nat.mod_eq_of_lt (by omega)]
    omega
  · intro hv
    show (m.version + 1) % 2 ^ 64 = 0
    rw [hv]
    norm_num

/-- Witness of C6, amended: in `stateAB`, whose self is `a`, `RemoveNode` of `a` keeps the
entry of `b` and the self value of the snapshot, and `RemoveNode` of the untracked `c`
keeps the map. -/
theorem C6_RemoveNode_frame_witness :
    "b" ≠ nodeA.Name ∧ mapGet stateAB.nodes nodeC.Name = none ∧ stateAB.version < 2 ^ 64 - 1 ∧
      mapGet (stateAB.RemoveNode nodeA).nodes "b" = mapGet stateAB.nodes "b" ∧
      (stateAB.RemoveNode nodeA).Snapshot.1 = stateAB.Snapshot.1 ∧
      (stateAB.RemoveNode nodeC).nodes = stateAB.nodes ∧
      stateAB.version < (stateAB.RemoveNode nodeA).version :=
  ⟨by decide, by decide, by decide,
    (C6_RemoveNode_frame stateAB nodeA).2.2.2.2.2.1 "b" (by decide),
    (C6_RemoveNode_frame stateAB nodeA).2.2.2.2.1,
    (C6_RemoveNode_frame stateAB nodeC).2.2.2.2.2.2.1 (by decide),
    (C6_RemoveNode_frame stateAB nodeA).2.2.2.2.2.2.2.2.1 (by decide)⟩

/-! ## The self reference -/

theorem UpdateNode_me_of_some (net : NetLib) {m : NodeMap} (src : Node) {a : Nat}
    (h : m.me = some a) : (m.UpdateNode net src).1.me = some a := by
  rw [UpdateNode_eq]
  simp [h]

theorem step_me_of_some (net : NetLib) {m : NodeMap} (o : Op) {a : Nat}
    (h : m.me = some a) : (step net m o).me = some a := by
  cases o with
  | updateNode src => exact UpdateNode_me_of_some net src h
  | removeNode node => exact h
  | markReady => exact h
  | isReady => exact h
  | isVersion v => exact h
  | snapshot => exact h

/-- An allocated object stays allocated and keeps its name through `UpdateNode`. -/
theorem UpdateNode_heap_name (net : NetLib) (m : NodeMap) (src : Node) {b : Nat}
    (hb : b < m.heap.length) :
    b < (m.UpdateNode net src).1.heap.length ∧
      (deref (m.UpdateNode net src).1.heap b).Name = (deref m.heap b).Name := by
  cases hg : mapGet m.nodes src.Name with
  | none =>
    rw [UpdateNode_fresh net hg]
    refine ⟨?_, ?_⟩
    · simp only [List.length_append]
      omega
    · simp only [deref_append_lt _ hb]
  | some a =>
    rw [UpdateNode_found net hg]
    refine ⟨?_, ?_⟩
    · simpa using hb
    · dsimp only
      by_cases e : a = b
      · subst e
        rw [deref_set_self _ hb, update_name]
      · rw [deref_set_ne _ _ e]

theorem step_heap_name (net : NetLib) (m : NodeMap) (o : Op) {b : Nat}
    (hb : b < m.heap.length) :
    b < (step net m o).heap.length ∧
      (deref (step net m o).heap b).Name = (deref m.heap b).Name := by
  cases o with
  | updateNode src => exact UpdateNode_heap_name net m src hb
  | removeNode node => exact ⟨hb, rfl⟩
  | markReady => exact ⟨hb, rfl⟩
  | isReady => exact ⟨hb, rfl⟩
  | isVersion v => exact ⟨hb, rfl⟩
  | snapshot => exact ⟨hb, rfl⟩

theorem run_heap_name (net : NetLib) (ops : List Op) (m : NodeMap) {b : Nat}
    (hb : b < m.heap.length) :
    b < (run net m ops).heap.length ∧
      (deref (run net m ops).heap b).Name = (deref m.heap b).Name := by
  induction ops generalizing m with
  | nil => exact ⟨hb, rfl⟩
  | cons o ops ih =>
    have h1 := step_heap_name net m o hb
    have h2 := ih (step net m o) h1.1
    exact ⟨h2.1, h2.2.trans h1.2⟩

theorem run_me_of_some (net : NetLib) (ops : List Op) (m : NodeMap) {a : Nat}
    (h : m.me = some a) : (run net m ops).me = some a := by
  induction ops generalizing m with
  | nil => exact h
  | cons o ops ih => exact ih (step net m o) (step_me_of_some net o h)

/-- Once self is resolved the predicate is not read: `UpdateNode` under another predicate
gives the same state and the same result. -/
theorem UpdateNode_mePredicate_irrelevant (net : NetLib) (m : NodeMap) (src : Node)
    (q : Node → Bool) {a : Nat} (h : m.me = some a) :
    ({ m with mePredicate := q } : NodeMap).UpdateNode net src =
      ({ (m.UpdateNode net src).1 with mePredicate := q }, (m.UpdateNode net src).2) := by
  cases hg : mapGet m.nodes src.Name with
  | none =>
    have hg2 : mapGet ({ m with mePredicate := q } : NodeMap).nodes src.Name = none := hg
    rw [UpdateNode_fresh net hg, UpdateNode_fresh net hg2]
    simp [h]
  | some b =>
    have hg2 : mapGet ({ m with mePredicate := q } : NodeMap).nodes src.Name = some b := hg
    rw [UpdateNode_found net hg, UpdateNode_found net hg2]
    simp [h]

theorem step_mePredicate_irrelevant (net : NetLib) (m : NodeMap) (o : Op)
    (q : Node → Bool) {a : Nat} (h : m.me = some a) :
    step net { m with mePredicate := q } o = { step net m o with mePredicate := q } := by
  cases o with
  | updateNode src =>
    show (({ m with mePredicate := q } : NodeMap).UpdateNode net src).1 = _
    rw [UpdateNode_mePredicate_irrelevant net m src q h]
    rfl
  | removeNode node => rfl
  | markReady => rfl
  | isReady => rfl
  | isVersion v => rfl
  | snapshot => rfl

theorem run_mePredicate_irrelevant (net : NetLib) (ops : List Op) (m : NodeMap)
    (q : Node → Bool) {a : Nat} (h : m.me = some a) :
    run net { m with mePredicate := q } ops = { run net m ops with mePredicate := q } := by
  induction ops generalizing m with
  | nil => rfl
  | cons o ops ih =>
    show run net (step net { m with mePredicate := q } o) ops = _
    rw [step_mePredicate_irrelevant net m o q h]
    exact ih (step net m o) (step_me_of_some net o h)

/-- C7: self resolution is permanent. From a state in which self is resolved, after every
sequence of public operations (`UpdateNode` for any record, `RemoveNode`, `MarkReady`) the
self reference is to the same object, that object carries the same name, so the self value
of a ready `Snapshot` has the name it had, and the run under any other predicate gives the
same state: the answers of the predicate have no effect. -/
theorem C7_self_permanent (net : NetLib) (m : NodeMap) (a : Nat) (ops : List Op)
    (h : WF m) (hme : m.me = some a) :
    (run net m ops).me = some a ∧
    (deref (run net m ops).heap a).Name = (deref m.heap a).Name ∧
    ((run net m ops).ready = true →
      (run net m ops).Snapshot.1.map (fun e => e.Name) = some (deref m.heap a).Name) ∧
    (∀ q : Node → Bool,
      run net { m with mePredicate := q } ops = { run net m ops with mePredicate := q }) := by
  have h1 := run_me_of_some net ops m hme
  have h2 := (run_heap_name net ops m (h.me_valid a hme)).2
  refine ⟨h1, h2, ?_, fun q => run_mePredicate_irrelevant net ops m q hme⟩
  intro hr
  rw [Snapshot_of_ready hr]
  simp [h1, h2]

/-- Witness of C7: in `stateAB` self is the object of `a`; after `a` is removed, entered
again and another record is updated under a predicate that holds of every record, the
self value of the snapshot is still named `a`. -/
theorem C7_self_permanent_witness :
    WF stateAB ∧ stateAB.me = some 0 ∧
      (run ipv4Net { stateAB with mePredicate := fun _ => true }
        [.removeNode nodeA, .updateNode nodeC, .updateNode nodeA]).Snapshot.1.map
          (fun e => e.Name) = some "a" :=
  ⟨stateAB_WF, by decide,
    (C7_self_permanent ipv4Net { stateAB with mePredicate := fun _ => true } 0
      [.removeNode nodeA, .updateNode nodeC, .updateNode nodeA]
      ⟨stateAB_WF.version_lt, stateAB_WF.keys_nodup, stateAB_WF.addrs_nodup,
        stateAB_WF.addr_valid, stateAB_WF.name_eq, stateAB_WF.me_valid⟩ (by decide)).2.2.1
      (by decide)⟩

/-! ## Repeated `UpdateNode` -/

theorem mapGet_append_self {l : List (String × Nat)} {k : String} (a : Nat)
    (h : mapGet l k = none) : mapGet (l ++ [(k, a)]) k = some a := by
  have h2 := mapGet_mapSet_self l k a
  rwa [mapSet, mapDelete_of_mapGet_none h] at h2

theorem UpdateNode_again (net : NetLib) {m : NodeMap} (src : Node) (h : WF m) :
    ((m.UpdateNode net src).1.UpdateNode net src).2 = false := by
  cases hg : mapGet m.nodes src.Name with
  | none =>
    have hg1 : mapGet (m.UpdateNode net src).1.nodes src.Name = some m.heap.length := by
      rw [UpdateNode_fresh net hg]
      exact mapGet_append_self _ hg
    rw [UpdateNode_found net hg1]
    simp only [UpdateNode_fresh net hg, deref_append_length, update_again, Bool.false_or]
    cases hme : m.me <;> cases hp : m.mePredicate src <;> simp
  | some a =>
    have ha : a < m.heap.length := h.addr_valid _ (mem_of_mapGet hg)
    have hg1 : mapGet (m.UpdateNode net src).1.nodes src.Name = some a := by
      rw [UpdateNode_found net hg]
      exact hg
    rw [UpdateNode_found net hg1]
    simp only [UpdateNode_found net hg, deref_set_self _ ha, update_again, Bool.false_or]
    cases hme : m.me <;> cases hp : m.mePredicate src <;> simp

/-- C8: with the self-identification predicate a function of the record, a second
`UpdateNode` of the same record right after the first returns false and leaves the state,
so the version, the map, the objects and the self reference, as the first call left
it. -/
theorem C8_UpdateNode_twice (net : NetLib) (m : NodeMap) (src : Node) (h : WF m) :
    ((m.UpdateNode net src).1.UpdateNode net src).2 = false ∧
      ((m.UpdateNode net src).1.UpdateNode net src).1 = (m.UpdateNode net src).1 :=
  ⟨UpdateNode_again net src h, UpdateNode_false_eq net _ src (UpdateNode_again net src h)⟩

/-- Witness of C8: in `stateAB` the record of the untracked name `c` is updated twice; the
first call returns true, the second false with the version still 3. -/
theorem C8_UpdateNode_twice_witness :
    WF stateAB ∧ (stateAB.UpdateNode ipv4Net nodeC).2 = true ∧
      ((stateAB.UpdateNode ipv4Net nodeC).1.UpdateNode ipv4Net nodeC).2 = false ∧
      ((stateAB.UpdateNode ipv4Net nodeC).1.UpdateNode ipv4Net nodeC).1.version = 3 :=
  ⟨stateAB_WF, by decide, (C8_UpdateNode_twice ipv4Net stateAB nodeC stateAB_WF).1, by
    rw [(C8_UpdateNode_twice ipv4Net stateAB nodeC stateAB_WF).2]
    decide⟩

/-! ## The version and staleness -/

theorem SameContent.refl (m : NodeMap) : SameContent m m :=
  ⟨rfl, rfl, rfl, rfl, rfl, id⟩

theorem SameContent.trans {m m' m'' : NodeMap} (h : SameContent m m')
    (h' : SameContent m' m'') : SameContent m m'' :=
  ⟨h'.1.trans h.1, h'.2.1.trans h.2.1, h'.2.2.1.trans h.2.2.1,
    h'.2.2.2.1.trans h.2.2.2.1, h'.2.2.2.2.1.trans h.2.2.2.2.1,
    fun hr => h'.2.2.2.2.2 (h.2.2.2.2.2 hr)⟩

/-- A public operation either leaves the content of the state as it is or increments the
version. -/
theorem step_same_or_bump (net : NetLib) (m : NodeMap) (o : Op) :
    SameContent m (step net m o) ∨ (step net m o).version = (m.version + 1) % 2 ^ 64 := by
  cases o with
  | updateNode src =>
    cases hf : (m.UpdateNode net src).2 with
    | false =>
      left
      show SameContent m (m.UpdateNode net src).1
      rw [UpdateNode_false_eq net m src hf]
      exact SameContent.refl m
    | true =>
      right
      show (m.UpdateNode net src).1.version = _
      rw [UpdateNode_version, if_pos hf]
  | removeNode node => exact Or.inr rfl
  | markReady => exact Or.inl ⟨rfl, rfl, rfl, rfl, rfl, fun _ => rfl⟩
  | isReady => exact Or.inl (SameContent.refl m)
  | isVersion v => exact Or.inl (SameContent.refl m)
  | snapshot => exact Or.inl (SameContent.refl m)

/-- After a sequence of operations the version is the one before plus the number `k` of
increments, modulo `2 ^ 64`, and with no increment the content is the one before. -/
theorem run_version_count (net : NetLib) (ops : List Op) {m : NodeMap} (h : WF m) :
    ∃ k, k ≤ ops.length ∧ (run net m ops).version = (m.version + k) % 2 ^ 64 ∧
      (k = 0 → SameContent m (run net m ops)) := by
  induction ops generalizing m with
  | nil =>
    refine ⟨0, Nat.le_refl _, ?_, fun _ => SameContent.refl m⟩
    have := h.version_lt
    show m.version = (m.version + 0) % 2 ^ 64
    rw [Nat.add_zero, Nat.mod_eq_of_lt this]
  | cons o ops ih =>
    obtain ⟨k, hk, hv, hs⟩ := ih (WF_step net o h)
    have hrun : run net m (o :: ops) = run net (step net m o) ops := rfl
    rw [hrun]
    rcases step_same_or_bump net m o with h1 | h1
    · refine ⟨k, ?_, ?_, ?_⟩
      · simp only [List.length_cons]
        omega
      · rw [hv, h1.1]
      · intro hk0
        exact h1.trans (hs hk0)
    · refine ⟨k + 1, ?_, ?_, ?_⟩
      · simp only [List.length_cons]
        omega
      · rw [hv, h1]
        omega
      · intro hk0
        omega

theorem run_same_of_version (net : NetLib) (ops : List Op) {m : NodeMap} (h : WF m)
    (hl : ops.length < 2 ^ 64) (hv : (run net m ops).version = m.version) :
    SameContent m (run net m ops) := by
  obtain ⟨k, hk, hv2, hs⟩ := run_version_count net ops h
  apply hs
  have := h.version_lt
  rw [hv] at hv2
  omega

/-- C9: the version detects staleness. For a state `s` reached from `NewNodeMap` and a
sequence of fewer than `2 ^ 64` public operations from `s` to `s'`, if `IsVersion` of the
version of `s` returns true in `s'`, then the map, the objects and the self reference of
`s'` are those of `s`; a `Snapshot` of `s'` is the `Snapshot` of `s` when `s` is ready, and
in any case the two states give the same `Snapshot` once marked ready. -/
theorem C9_version_staleness (net : NetLib) (s : NodeMap) (ops : List Op)
    (hs : Reachable net s) (hl : ops.length < 2 ^ 64)
    (hv : (run net s ops).IsVersion s.version = true) :
    (run net s ops).nodes = s.nodes ∧ (run net s ops).heap = s.heap ∧
      (run net s ops).me = s.me ∧
      (s.ready = true → (run net s ops).Snapshot = s.Snapshot) ∧
      (run net s ops).MarkReady.Snapshot = s.MarkReady.Snapshot := by
  have hv2 : (run net s ops).version = s.version := by
    simpa [NodeMap.IsVersion] using hv
  obtain ⟨h1, h2, h3, h4, _, h6⟩ := run_same_of_version net ops (WF_of_Reachable hs) hl hv2
  refine ⟨h2, h3, h4, ?_, ?_⟩
  · intro hr
    rw [Snapshot_of_ready hr, Snapshot_of_ready (h6 hr), h1, h2, h3, h4]
  · have e1 : (run net s ops).MarkReady.ready = true := rfl
    have e2 : s.MarkReady.ready = true := rfl
    rw [Snapshot_of_ready e1, Snapshot_of_ready e2]
    show (_, List.map _ (run net s ops).nodes, (run net s ops).version) = _
    simp only [NodeMap.MarkReady, h1, h2, h3, h4]

theorem stateAB_Reachable : Reachable ipv4Net stateAB :=
  ⟨isNodeA, [.updateNode nodeA, .updateNode nodeB, .markReady], rfl⟩

/-- Witness of C9: from `stateAB`, a repeated update of `a`, the reads and `MarkReady` leave
the version at 2, and the snapshot is the one of `stateAB`. -/
theorem C9_version_staleness_witness :
    Reachable ipv4Net stateAB ∧
      [Op.updateNode nodeA, Op.isReady, Op.isVersion 7, Op.markReady, Op.snapshot].length
        < 2 ^ 64 ∧
      (run ipv4Net stateAB
        [.updateNode nodeA, .isReady, .isVersion 7, .markReady, .snapshot]).IsVersion
          stateAB.version = true ∧
      (run ipv4Net stateAB
        [.updateNode nodeA, .isReady, .isVersion 7, .markReady, .snapshot]).Snapshot
          = stateAB.Snapshot :=
  ⟨stateAB_Reachable, by decide, by decide,
    (C9_version_staleness ipv4Net stateAB
      [.updateNode nodeA, .isReady, .isVersion 7, .markReady, .snapshot]
      stateAB_Reachable (by decide) (by decide)).2.2.2.1 (by decide)⟩

/-! ## Malformed subnet strings -/

theorem updatePodCIDR_malformed (net : NetLib) (n : NodeInfo) {src : Node}
    (hs : src.Spec.PodCIDR = "" ∨ net.ParseCIDR src.Spec.PodCIDR = none) :
    (n.updatePodCIDR net src).1.PodCIDR = none := by
  dsimp only [NodeInfo.updatePodCIDR]
  by_cases h1 : src.Spec.PodCIDR = ""
  · simp only [h1, if_true]
    split <;> simp_all
  · have h2 : net.ParseCIDR src.Spec.PodCIDR = none := hs.resolve_left h1
    simp only [h1, if_false, h2]
    split <;> simp_all

theorem update_malformed (net : NetLib) (n : NodeInfo) {src : Node}
    (hs : src.Spec.PodCIDR = "" ∨ net.ParseCIDR src.Spec.PodCIDR = none) :
    (n.update net src).1.PodCIDR = none := by
  show ((n.updatePodCIDR net src).1.updateAddress net src).1.PodCIDR = none
  rw [updateAddress_podCIDR]
  exact updatePodCIDR_malformed net n hs

/-- After `UpdateNode` the name of the record has an object, the one `update` was applied
to. -/
theorem UpdateNode_entry (net : NetLib) {m : NodeMap} (src : Node) (h : WF m) :
    ∃ a n, mapGet (m.UpdateNode net src).1.nodes src.Name = some a ∧ n.Name = src.Name ∧
      deref (m.UpdateNode net src).1.heap a = (n.update net src).1 ∧
      (mapGet m.nodes src.Name = some a → n = deref m.heap a) ∧
      (mapGet m.nodes src.Name = none → n = { Name := src.Name, Address := none, PodCIDR := none }) := by
  cases hg : mapGet m.nodes src.Name with
  | none =>
    refine ⟨m.heap.length, ⟨src.Name, none, none⟩, ?_, rfl, ?_, fun e => by simp at e,
      fun _ => rfl⟩
    · rw [UpdateNode_fresh net hg]
      exact mapGet_append_self _ hg
    · rw [UpdateNode_fresh net hg]
      exact deref_append_length _ _
  | some a =>
    have hmem := mem_of_mapGet hg
    refine ⟨a, deref m.heap a, ?_, h.name_eq _ hmem, ?_, fun _ => rfl, fun e => by simp at e⟩
    · rw [UpdateNode_found net hg]
      exact hg
    · rw [UpdateNode_found net hg]
      exact deref_set_self _ (h.addr_valid _ hmem)

/-- C10: for a record whose subnet string is empty or is not parsed as a CIDR prefix, after
`UpdateNode` the name of the record has an entry, the entry carries the name and has no
subnet, whatever subnet it had before, and it is in the node sequence of a ready
`Snapshot`. -/
theorem C10_malformed_subnet (net : NetLib) (m : NodeMap) (src : Node) (h : WF m)
    (hs : src.Spec.PodCIDR = "" ∨ net.ParseCIDR src.Spec.PodCIDR = none) :
    ∃ a, mapGet (m.UpdateNode net src).1.nodes src.Name = some a ∧
      (deref (m.UpdateNode net src).1.heap a).Name = src.Name ∧
      (deref (m.UpdateNode net src).1.heap a).PodCIDR = none ∧
      ((m.UpdateNode net src).1.ready = true →
        deref (m.UpdateNode net src).1.heap a ∈ (m.UpdateNode net src).1.Snapshot.2.1) := by
  obtain ⟨a, n, h1, h2, h3, _, _⟩ := UpdateNode_entry net src h
  refine ⟨a, h1, ?_, ?_, ?_⟩
  · rw [h3, update_name, h2]
  · rw [h3]
    exact update_malformed net n hs
  · intro hr
    rw [Snapshot_of_ready hr]
    exact List.mem_map.mpr ⟨(src.Name, a), mem_of_mapGet h1, rfl⟩

/-- Witness of C10: in `stateAB` the entry of `a` has the subnet 10.1.2.0/24; after
`UpdateNode` with the subnet string `not-a-cidr` the entry of `a` is still there and has no
subnet. After `UpdateNode` of the untracked `c` with the empty subnet string, `c` has an
entry without subnet. -/
theorem C10_malformed_subnet_witness :
    WF stateAB ∧ ipv4Net.ParseCIDR nodeABad.Spec.PodCIDR = none ∧ nodeC.Spec.PodCIDR = "" ∧
      (deref stateAB.heap 0).PodCIDR = some ⟨[10, 1, 2, 0], [255, 255, 255, 0]⟩ ∧
      (∃ a, mapGet (stateAB.UpdateNode ipv4Net nodeABad).1.nodes nodeABad.Name = some a ∧
        (deref (stateAB.UpdateNode ipv4Net nodeABad).1.heap a).Name = nodeABad.Name ∧
        (deref (stateAB.UpdateNode ipv4Net nodeABad).1.heap a).PodCIDR = none ∧
        ((stateAB.UpdateNode ipv4Net nodeABad).1.ready = true →
          deref (stateAB.UpdateNode ipv4Net nodeABad).1.heap a ∈
            (stateAB.UpdateNode ipv4Net nodeABad).1.Snapshot.2.1)) ∧
      (∃ a, mapGet (stateAB.UpdateNode ipv4Net nodeC).1.nodes nodeC.Name = some a ∧
        (deref (stateAB.UpdateNode ipv4Net nodeC).1.heap a).Name = nodeC.Name ∧
        (deref (stateAB.UpdateNode ipv4Net nodeC).1.heap a).PodCIDR = none ∧
        ((stateAB.UpdateNode ipv4Net nodeC).1.ready = true →
          deref (stateAB.UpdateNode ipv4Net nodeC).1.heap a ∈
            (stateAB.UpdateNode ipv4Net nodeC).1.Snapshot.2.1)) :=
  ⟨stateAB_WF, by decide, rfl, by decide,
    C10_malformed_subnet ipv4Net stateAB nodeABad stateAB_WF (Or.inr (by decide)),
    C10_malformed_subnet ipv4Net stateAB nodeC stateAB_WF (Or.inl rfl)⟩

/-! ## The choice of the internal address -/

theorem sortStrings_head (l : List String) {s : String}
    (h : (sortStrings l).head? = some s) : s ∈ l ∧ ∀ t ∈ l, s.data ≤ t.data := by
  have hs : List.Sorted (fun a b : String => a.data ≤ b.data) (sortStrings l) :=
    @List.sorted_insertionSort _ (fun a b : String => a.data ≤ b.data) _
      ⟨fun a b => le_total a.data b.data⟩ ⟨fun _ _ _ h1 h2 => le_trans h1 h2⟩ l
  have hp : (sortStrings l).Perm l := List.perm_insertionSort _ l
  cases hl : sortStrings l with
  | nil =>
    rw [hl] at h
    simp at h
  | cons x xs =>
    rw [hl] at h hs hp
    simp only [List.head?_cons, Option.some.injEq] at h
    subst h
    refine ⟨hp.subset (List.mem_cons_self _ _), fun t ht => ?_⟩
    rcases List.mem_cons.mp (hp.symm.subset ht) with e | e
    · rw [e]
    · exact List.rel_of_sorted_cons hs t e

theorem chosenIP_none {src : Node} (h : internalIPs src = []) : chosenIP src = none := by
  simp [chosenIP, h]

/-- The candidate is an internal address of the record and no internal address of the
record is smaller. -/
theorem chosenIP_spec {src : Node} (h : internalIPs src ≠ []) :
    ∃ s, chosenIP src = some s ∧ s ∈ internalIPs src ∧
      ∀ t ∈ internalIPs src, s.data ≤ t.data := by
  have h0 : ¬ (internalIPs src).length = 0 := by
    intro e
    exact h (List.length_eq_zero.mp e)
  by_cases h1 : (internalIPs src).length = 1
  · obtain ⟨x, hx⟩ := List.length_eq_one.mp h1
    refine ⟨x, ?_, ?_, ?_⟩
    · simp [chosenIP, hx]
    · simp [hx]
    · intro t ht
      rw [hx] at ht
      rw [List.mem_singleton.mp ht]
  · have hp : (sortStrings (internalIPs src)).Perm (internalIPs src) :=
      List.perm_insertionSort _ _
    cases hl : sortStrings (internalIPs src) with
    | nil =>
      rw [hl] at hp
      exact absurd hp.symm.eq_nil h
    | cons x xs =>
      have hh : (sortStrings (internalIPs src)).head? = some x := by rw [hl]; rfl
      refine ⟨x, ?_, sortStrings_head _ hh⟩
      simp [chosenIP, h0, h1, hl]

/-- The smallest internal address of a record is the candidate. -/
theorem chosenIP_of_min {src : Node} {s : String} (hs : s ∈ internalIPs src)
    (hmin : ∀ t ∈ internalIPs src, s.data ≤ t.data) : chosenIP src = some s := by
  obtain ⟨x, hx, hxm, hxmin⟩ := chosenIP_spec (List.ne_nil_of_mem hs)
  have e : x = s := String.ext (le_antisymm (hxmin s hs) (hmin x hxm))
  rw [hx, e]

theorem internalIPs_perm {src src' : Node}
    (h : src'.Status.Addresses.Perm src.Status.Addresses) :
    (internalIPs src').Perm (internalIPs src) :=
  (h.filter _).map _

theorem IPEqual_of_length {x y : List Nat} (hl : x.length = y.length)
    (h : IPEqual x y = true) : x = y := by
  simpa [IPEqual, hl] using h

/-- The address attribute after `update`, for a candidate that parses to a non-empty
slice: equal to the parsed value under `IP.Equal`, and the parsed value itself when the
attribute was absent or of the same length. -/
theorem updateAddress_parsed (net : NetLib) (n : NodeInfo) {src : Node} {s : String}
    {a : List Nat} (hc : chosenIP src = some s) (hp : net.ParseIP s = some a) (ha : a ≠ []) :
    ∃ b, (n.updateAddress net src).1.Address = some b ∧ IPEqual b a = true ∧
      ((∀ c, n.Address = some c → c.length = a.length) → b = a) := by
  dsimp only [NodeInfo.updateAddress]
  simp only [hc, hp]
  by_cases h3 : (!IPEqual (n.Address.getD []) a) = true
  · rw [if_pos h3]
    exact ⟨a, rfl, IPEqual_self a, fun _ => rfl⟩
  · rw [if_neg h3]
    have h4 : IPEqual (n.Address.getD []) a = true := by simpa using h3
    show ∃ b, n.Address = some b ∧ _
    cases hn : n.Address with
    | none =>
      rw [hn] at h4
      have hl : ([] : List Nat).length ≠ a.length := by
        intro e
        exact ha (List.length_eq_zero.mp e.symm)
      simp [IPEqual, hl] at h4
      exact absurd h4.2 ha
    | some c =>
      rw [hn] at h4
      exact ⟨c, rfl, h4, fun hlen => IPEqual_of_length (hlen c rfl) h4⟩

/-- C11: for a record with two or more internal address records, the candidate chosen by
`update` is the smallest of the internal address strings in the lexicographic order, it is
the same for every order of the address records, and when it parses (to a slice that is not
empty, as every result of `net.ParseIP` is) the address of the entry after `update` is its
parsed value: equal to it under `IP.Equal`, and the very slice when the entry had no address
or one of the same length. -/
theorem C11_smallest_internal (net : NetLib) (n : NodeInfo) (src : Node)
    (h2 : 2 ≤ (internalIPs src).length) :
    ∃ s, chosenIP src = some s ∧ s ∈ internalIPs src ∧
      (∀ t ∈ internalIPs src, s.data ≤ t.data) ∧
      (∀ src' : Node, src'.Status.Addresses.Perm src.Status.Addresses →
        chosenIP src' = some s) ∧
      (∀ a, net.ParseIP s = some a → a ≠ [] →
        ∃ b, (n.update net src).1.Address = some b ∧ IPEqual b a = true ∧
          ((∀ c, n.Address = some c → c.length = a.length) → b = a)) := by
  have hne : internalIPs src ≠ [] := by
    intro e
    rw [e] at h2
    simp at h2
  obtain ⟨s, hs, hmem, hmin⟩ := chosenIP_spec hne
  refine ⟨s, hs, hmem, hmin, ?_, ?_⟩
  · intro src' hperm
    have hp := internalIPs_perm hperm
    exact chosenIP_of_min (hp.symm.subset hmem) (fun t ht => hmin t (hp.subset ht))
  · intro a hpa ha
    have := updateAddress_parsed net (n.updatePodCIDR net src).1 hs hpa ha
    rw [updatePodCIDR_address] at this
    exact this

/-- Witness of C11: for the internal addresses 10.0.0.5 and 10.0.0.2 the candidate is
`10.0.0.2`, also for `nodeA` and for `nodeA` with its records reversed, and a new entry
gets the address 10.0.0.2. -/
theorem C11_smallest_internal_witness :
    2 ≤ (internalIPs nodeTwo).length ∧ internalIPs nodeTwo = ["10.0.0.5", "10.0.0.2"] ∧
      chosenIP nodeTwo = some "10.0.0.2" ∧ chosenIP nodeA = chosenIP nodeARev ∧
      ((NodeInfo.mk "n" none none).update ipv4Net nodeTwo).1.Address
        = some [0, 0, 0, 0, 0, 0, 0, 0, 0, 0, 255, 255, 10, 0, 0, 2] ∧
      ∃ s, chosenIP nodeTwo = some s ∧ s ∈ internalIPs nodeTwo ∧
        (∀ t ∈ internalIPs nodeTwo, s.data ≤ t.data) ∧
        (∀ src' : Node, src'.Status.Addresses.Perm nodeTwo.Status.Addresses →
          chosenIP src' = some s) ∧
        (∀ a, ipv4Net.ParseIP s = some a → a ≠ [] →
          ∃ b, ((NodeInfo.mk "n" none none).update ipv4Net nodeTwo).1.Address = some b ∧
            IPEqual b a = true ∧
            ((∀ c, (NodeInfo.mk "n" none none).Address = some c → c.length = a.length) →
              b = a)) :=
  ⟨by decide, by decide, by decide, by decide, by decide,
    C11_smallest_internal ipv4Net (NodeInfo.mk "n" none none) nodeTwo (by decide)⟩

/-! ## `UpdateNode` keeps every tracked name -/

theorem addr_inj {m : NodeMap} (h : WF m) {k k' : String} {a : Nat}
    (hk : mapGet m.nodes k = some a) (hk' : mapGet m.nodes k' = some a) : k = k' := by
  have := List.inj_on_of_nodup_map h.addrs_nodup (mem_of_mapGet hk) (mem_of_mapGet hk') rfl
  exact congrArg Prod.fst this

/-- The object of a name other than the record's is not written by `UpdateNode`. -/
theorem UpdateNode_deref_ne (net : NetLib) {m : NodeMap} {src : Node} (h : WF m)
    {k : String} {a : Nat} (hne : k ≠ src.Name) (hk : mapGet m.nodes k = some a) :
    deref (m.UpdateNode net src).1.heap a = deref m.heap a := by
  have ha : a < m.heap.length := h.addr_valid _ (mem_of_mapGet hk)
  cases hg : mapGet m.nodes src.Name with
  | none =>
    rw [UpdateNode_fresh net hg]
    exact deref_append_lt _ ha
  | some b =>
    rw [UpdateNode_found net hg]
    have hba : b ≠ a := by
      intro e
      rw [e] at hg
      exact hne (addr_inj h hk hg)
    exact deref_set_ne _ _ hba

theorem UpdateNode_mapGet_self (net : NetLib) (m : NodeMap) (src : Node) :
    ∃ a, mapGet (m.UpdateNode net src).1.nodes src.Name = some a ∧
      (∀ b, mapGet m.nodes src.Name = some b → a = b) := by
  cases hg : mapGet m.nodes src.Name with
  | none =>
    rw [UpdateNode_fresh net hg]
    exact ⟨m.heap.length, mapGet_append_self _ hg, fun b hb => by simp at hb⟩
  | some a =>
    rw [UpdateNode_found net hg]
    exact ⟨a, hg, fun b hb => by simpa using hb⟩

/-- C12: `UpdateNode` evicts nothing, whatever the subnet string and the address records
of the record are. The names tracked after the call are the names tracked before together
with the name of the record, every name keeps the object it had, and the entry of every
name other than the record's is unchanged. -/
theorem C12_UpdateNode_evicts_nothing (net : NetLib) (m : NodeMap) (src : Node) (h : WF m) :
    (∀ k, (mapGet (m.UpdateNode net src).1.nodes k).isSome = true ↔
      ((mapGet m.nodes k).isSome = true ∨ k = src.Name)) ∧
    (∀ k a, mapGet m.nodes k = some a →
      mapGet (m.UpdateNode net src).1.nodes k = some a) ∧
    (∀ k a, k ≠ src.Name → mapGet m.nodes k = some a →
      deref (m.UpdateNode net src).1.heap a = deref m.heap a) := by
  obtain ⟨a0, ha0, hsame⟩ := UpdateNode_mapGet_self net m src
  refine ⟨?_, ?_, ?_⟩
  · intro k
    by_cases hk : k = src.Name
    · subst hk
      simp [ha0]
    · rw [UpdateNode_mapGet_ne net m hk]
      simp [hk]
  · intro k a hk
    by_cases hks : k = src.Name
    · subst hks
      rw [ha0, hsame a hk]
    · rw [UpdateNode_mapGet_ne net m hks]
      exact hk
  · intro k a hne hk
    exact UpdateNode_deref_ne net h hne hk

/-- Witness of C12: in `stateAB`, which tracks `a` and `b`, `UpdateNode` with the record of
`a` whose subnet string is not parsed keeps `b` with its object and its entry, and
`UpdateNode` of `c` keeps `a`. -/
theorem C12_UpdateNode_evicts_nothing_witness :
    WF stateAB ∧ mapGet stateAB.nodes "b" = some 1 ∧ "b" ≠ nodeABad.Name ∧
      mapGet (stateAB.UpdateNode ipv4Net nodeABad).1.nodes "b" = some 1 ∧
      deref (stateAB.UpdateNode ipv4Net nodeABad).1.heap 1 = deref stateAB.heap 1 ∧
      mapGet (stateAB.UpdateNode ipv4Net nodeC).1.nodes "a" = some 0 :=
  ⟨stateAB_WF, by decide, by decide,
    (C12_UpdateNode_evicts_nothing ipv4Net stateAB nodeABad stateAB_WF).2.1 "b" 1 (by decide),
    (C12_UpdateNode_evicts_nothing ipv4Net stateAB nodeABad stateAB_WF).2.2 "b" 1
      (by decide) (by decide),
    (C12_UpdateNode_evicts_nothing ipv4Net stateAB nodeC stateAB_WF).2.1 "a" 0 (by decide)⟩

/-! ## Records with the same normalized attributes -/

theorem updatePodCIDR_eq_norm (net : NetLib) (n : NodeInfo) (src : Node) :
    n.updatePodCIDR net src =
      match normPodCIDR net src with
      | none => if n.PodCIDR ≠ none then ({ n with PodCIDR := none }, true) else (n, false)
      | some ipnet =>
        match n.PodCIDR with
        | none => ({ n with PodCIDR := some ipnet }, true)
        | some cur =>
          if !(IPEqual ipnet.IP cur.IP) || !(decide (cur.Mask = ipnet.Mask)) then
            ({ n with PodCIDR := some ipnet }, true)
          else (n, false) := by
  dsimp only [NodeInfo.updatePodCIDR, normPodCIDR]
  by_cases h1 : src.Spec.PodCIDR = ""
  · simp only [h1, if_true]
  · simp only [h1, if_false]

theorem updateAddress_eq_norm (net : NetLib) (n : NodeInfo) (src : Node) :
    n.updateAddress net src =
      match normAddress net src with
      | none => if n.Address ≠ none then ({ n with Address := none }, true) else (n, false)
      | some a =>
        if !(IPEqual (n.Address.getD []) a) then ({ n with Address := some a }, true)
        else (n, false) := by
  dsimp only [NodeInfo.updateAddress, normAddress]
  cases chosenIP src with
  | none => rfl
  | some s => rfl

/-- The method `update` reads a record through its normalized attributes only. -/
theorem update_congr (net : NetLib) (n : NodeInfo) {r1 r2 : Node}
    (hc : normPodCIDR net r2 = normPodCIDR net r1)
    (ha : normAddress net r2 = normAddress net r1) : n.update net r2 = n.update net r1 := by
  have h1 : ∀ n : NodeInfo, n.updatePodCIDR net r2 = n.updatePodCIDR net r1 := by
    intro n
    rw [updatePodCIDR_eq_norm, updatePodCIDR_eq_norm, hc]
  have h2 : ∀ n : NodeInfo, n.updateAddress net r2 = n.updateAddress net r1 := by
    intro n
    rw [updateAddress_eq_norm, updateAddress_eq_norm, ha]
  simp only [NodeInfo.update, h1, h2]

/-- The result of `UpdateNode` for a record with the name and the normalized attributes of
the record of the call before: only the binding of self can make it true. -/
theorem UpdateNode_after_same (net : NetLib) {m : NodeMap} {r1 r2 : Node} (h : WF m)
    (hn : r2.Name = r1.Name) (hc : normPodCIDR net r2 = normPodCIDR net r1)
    (ha : normAddress net r2 = normAddress net r1) :
    ((m.UpdateNode net r1).1.UpdateNode net r2).2 =
      (decide ((m.UpdateNode net r1).1.me = none) && m.mePredicate r2) := by
  obtain ⟨a, n, h1, _, h3, _, _⟩ := UpdateNode_entry net r1 h
  have h1' : mapGet (m.UpdateNode net r1).1.nodes r2.Name = some a := by rw [hn]; exact h1
  rw [UpdateNode_found net h1', h3, update_congr net _ hc ha, update_again,
    UpdateNode_mePredicate]
  simp

/-- C13, as stated, fails: with a predicate that holds of the second record and not of the
first, here the node with the host name `host-a`, two records of the same name with the
same normalized subnet and address are updated one after the other and the second call
returns true and takes the version from 1 to 2: it binds self. -/
theorem C13_counterexample :
    nodeA2.Name = nodeA.Name ∧
      normPodCIDR ipv4Net nodeA2 = normPodCIDR ipv4Net nodeA ∧
      normAddress ipv4Net nodeA2 = normAddress ipv4Net nodeA ∧
      ((NewNodeMap isHostA).UpdateNode ipv4Net nodeA).1.version = 1 ∧
      (((NewNodeMap isHostA).UpdateNode ipv4Net nodeA).1.UpdateNode ipv4Net nodeA2).2 = true ∧
      (((NewNodeMap isHostA).UpdateNode ipv4Net nodeA).1.UpdateNode ipv4Net nodeA2).1.version
        = 2 := by
  decide

/-- C13, amended: for two records with the same name and identical normalized attributes,
`UpdateNode` of the second right after `UpdateNode` of the first returns false and leaves
the state, so the version, unchanged when self is resolved after the first call or the
predicate rejects the second record. Otherwise the second call binds self, returns true
and increments the version. -/
theorem C13_noop_update (net : NetLib) (m : NodeMap) (r1 r2 : Node) (h : WF m)
    (hn : r2.Name = r1.Name) (hc : normPodCIDR net r2 = normPodCIDR net r1)
    (ha : normAddress net r2 = normAddress net r1) :
    (((m.UpdateNode net r1).1.me ≠ none ∨ m.mePredicate r2 = false) →
      ((m.UpdateNode net r1).1.UpdateNode net r2).2 = false ∧
      ((m.UpdateNode net r1).1.UpdateNode net r2).1 = (m.UpdateNode net r1).1 ∧
      ((m.UpdateNode net r1).1.UpdateNode net r2).1.version
        = (m.UpdateNode net r1).1.version) ∧
    (((m.UpdateNode net r1).1.me = none ∧ m.mePredicate r2 = true) →
      ((m.UpdateNode net r1).1.UpdateNode net r2).2 = true ∧
      ((m.UpdateNode net r1).1.UpdateNode net r2).1.me ≠ none ∧
      ((m.UpdateNode net r1).1.UpdateNode net r2).1.version
        = ((m.UpdateNode net r1).1.version + 1) % 2 ^ 64) := by
  have hf := UpdateNode_after_same net h hn hc ha
  constructor
  · intro hcase
    have hfalse : ((m.UpdateNode net r1).1.UpdateNode net r2).2 = false := by
      rw [hf]
      rcases hcase with h1 | h1
      · simp [h1]
      · simp [h1]
    have he := UpdateNode_false_eq net _ r2 hfalse
    exact ⟨hfalse, he, by rw [he]⟩
  · intro hcase
    have htrue : ((m.UpdateNode net r1).1.UpdateNode net r2).2 = true := by
      rw [hf]
      simp [hcase.1, hcase.2]
    refine ⟨htrue, ?_, ?_⟩
    · rw [UpdateNode_eq]
      simp [hcase.1, hcase.2, UpdateNode_mePredicate]
    · rw [UpdateNode_version, if_pos htrue]

/-- Witness of C13, amended: under the predicate `isNodeA` self is bound by the first call,
and the second call, for `nodeA2`, returns false with the version still 1. -/
theorem C13_noop_update_witness :
    WF (NewNodeMap isNodeA) ∧ nodeA2.Name = nodeA.Name ∧
      normPodCIDR ipv4Net nodeA2 = normPodCIDR ipv4Net nodeA ∧
      normAddress ipv4Net nodeA2 = normAddress ipv4Net nodeA ∧
      ((NewNodeMap isNodeA).UpdateNode ipv4Net nodeA).1.me ≠ none ∧
      (((NewNodeMap isNodeA).UpdateNode ipv4Net nodeA).1.UpdateNode ipv4Net nodeA2).2 = false ∧
      (((NewNodeMap isNodeA).UpdateNode ipv4Net nodeA).1.UpdateNode ipv4Net nodeA2).1.version
        = ((NewNodeMap isNodeA).UpdateNode ipv4Net nodeA).1.version :=
  ⟨WF_NewNodeMap _, by decide, by decide, by decide, by decide,
    ((C13_noop_update ipv4Net (NewNodeMap isNodeA) nodeA nodeA2 (WF_NewNodeMap _)
      (by decide) (by decide) (by decide)).1 (Or.inl (by decide))).1,
    ((C13_noop_update ipv4Net (NewNodeMap isNodeA) nodeA nodeA2 (WF_NewNodeMap _)
      (by decide) (by decide) (by decide)).1 (Or.inl (by decide))).2.2⟩

/-! ## The self reference as an alias into the map -/

theorem UpdateNode_mapGet_keep (net : NetLib) (m : NodeMap) (src : Node) {k : String}
    {a : Nat} (hk : mapGet m.nodes k = some a) :
    mapGet (m.UpdateNode net src).1.nodes k = some a := by
  by_cases hks : k = src.Name
  · obtain ⟨a0, ha0, hsame⟩ := UpdateNode_mapGet_self net m src
    subst hks
    rw [ha0, hsame a hk]
  · rw [UpdateNode_mapGet_ne net m hks]
    exact hk

/-- When self is bound by `UpdateNode` it is bound to the object of the record's name. -/
theorem UpdateNode_me_bound (net : NetLib) {m : NodeMap} (src : Node) (h : WF m) {a : Nat}
    (hnone : m.me = none) (hme : (m.UpdateNode net src).1.me = some a) :
    mapGet (m.UpdateNode net src).1.nodes src.Name = some a ∧
      (deref (m.UpdateNode net src).1.heap a).Name = src.Name := by
  cases hg : mapGet m.nodes src.Name with
  | none =>
    rw [UpdateNode_fresh net hg] at hme ⊢
    dsimp only at hme ⊢
    split at hme
    · cases hme
      exact ⟨mapGet_append_self _ hg, by rw [deref_append_length, update_name]⟩
    · rw [hnone] at hme
      cases hme
  | some b =>
    have hb : b < m.heap.length := h.addr_valid _ (mem_of_mapGet hg)
    rw [UpdateNode_found net hg] at hme ⊢
    dsimp only at hme ⊢
    split at hme
    · cases hme
      refine ⟨hg, ?_⟩
      rw [deref_set_self _ hb, update_name]
      exact h.name_eq _ (mem_of_mapGet hg)
    · rw [hnone] at hme
      cases hme

/-- An operation that is not a `RemoveNode` of the name `k` keeps the property that self,
when it is resolved to an object named `k`, is the object the map holds under `k`. -/
theorem step_alias (net : NetLib) {m : NodeMap} (h : WF m) {k : String} {o : Op}
    (ho : o.removes k = false)
    (hJ : ∀ a, m.me = some a → (deref m.heap a).Name = k → mapGet m.nodes k = some a) :
    ∀ a, (step net m o).me = some a → (deref (step net m o).heap a).Name = k →
      mapGet (step net m o).nodes k = some a := by
  intro a hme hname
  cases o with
  | updateNode src =>
    change (m.UpdateNode net src).1.me = some a at hme
    change (deref (m.UpdateNode net src).1.heap a).Name = k at hname
    show mapGet (m.UpdateNode net src).1.nodes k = some a
    cases hm : m.me with
    | none =>
      obtain ⟨h1, h2⟩ := UpdateNode_me_bound net src h hm hme
      rw [h2] at hname
      rw [← hname]
      exact h1
    | some a0 =>
      have e : a = a0 := by
        rw [UpdateNode_me_of_some net src hm] at hme
        exact (Option.some.inj hme).symm
      subst e
      have hv : a < m.heap.length := h.me_valid a hm
      rw [(UpdateNode_heap_name net m src hv).2] at hname
      exact UpdateNode_mapGet_keep net m src (hJ a hm hname)
  | removeNode node =>
    have hne : k ≠ node.Name := by
      intro e
      simp [Op.removes, e] at ho
    show mapGet (mapDelete m.nodes node.Name) k = some a
    rw [mapGet_mapDelete_ne _ hne]
    exact hJ a hme hname
  | markReady => exact hJ a hme hname
  | isReady => exact hJ a hme hname
  | isVersion v => exact hJ a hme hname
  | snapshot => exact hJ a hme hname

theorem run_alias (net : NetLib) (ops : List Op) {m : NodeMap} (h : WF m) {k : String}
    (ho : ∀ o ∈ ops, o.removes k = false)
    (hJ : ∀ a, m.me = some a → (deref m.heap a).Name = k → mapGet m.nodes k = some a) :
    ∀ a, (run net m ops).me = some a → (deref (run net m ops).heap a).Name = k →
      mapGet (run net m ops).nodes k = some a := by
  induction ops generalizing m with
  | nil => exact hJ
  | cons o ops ih =>
    exact ih (WF_step net o h) (fun o' ho' => ho o' (List.mem_cons_of_mem _ ho'))
      (step_alias net h (ho o (List.mem_cons_self _ _)) hJ)

/-- C14, as stated, fails. In the reachable state `stateRemoved`, self is resolved to the
entry `a` and the map holds nothing under `a`: the self value of the snapshot is not in
the node sequence. In the reachable state `stateReadded`, `a` was entered again and the
element of the node sequence named `a` is not the self value. -/
theorem C14_counterexample :
    Reachable ipv4Net stateRemoved ∧ stateRemoved.me = some 0 ∧
      (deref stateRemoved.heap 0).Name = "a" ∧ mapGet stateRemoved.nodes "a" = none ∧
      stateRemoved.ready = true ∧ stateRemoved.Snapshot.2.1 = [] ∧
      Reachable ipv4Net stateReadded ∧ stateReadded.me = some 0 ∧
      mapGet stateReadded.nodes "a" = some 1 ∧
      stateReadded.Snapshot.1.map (fun e => e.Name) = some "a" ∧
      stateReadded.Snapshot.2.1.map (fun e => e.Name) = ["a"] ∧
      ¬ ∃ self, stateReadded.Snapshot.1 = some self ∧ self ∈ stateReadded.Snapshot.2.1 :=
  ⟨⟨isNodeA, _, rfl⟩, by decide, by decide, by decide, by decide, by decide,
    ⟨isNodeA, _, rfl⟩, by decide, by decide, by decide, by decide, by decide⟩

/-- C14, amended: from a reachable state in which self is unresolved or is the object the
map holds under self's name (`NewNodeMap` is such a state), after every sequence of public
operations none of which is a `RemoveNode` of self's name, self, when resolved, is the
object the map holds under self's name, so the self value of a ready `Snapshot` is the
element of its node sequence that carries the same name. -/
theorem C14_self_alias (net : NetLib) (m : NodeMap) (ops : List Op) (a : Nat)
    (hm : Reachable net m)
    (hJ : ∀ b, m.me = some b → mapGet m.nodes (deref m.heap b).Name = some b)
    (hme : (run net m ops).me = some a)
    (hrem : ∀ o ∈ ops, o.removes (deref (run net m ops).heap a).Name = false) :
    mapGet (run net m ops).nodes (deref (run net m ops).heap a).Name = some a ∧
    ((run net m ops).ready = true →
      (run net m ops).Snapshot.1 = some (deref (run net m ops).heap a) ∧
      deref (run net m ops).heap a ∈ (run net m ops).Snapshot.2.1 ∧
      ∀ e ∈ (run net m ops).Snapshot.2.1,
        e.Name = (deref (run net m ops).heap a).Name → e = deref (run net m ops).heap a) := by
  have hwf := WF_of_Reachable hm
  have hwf' := WF_run net ops hwf
  have hget := run_alias net ops hwf hrem (fun b hb hn => by rw [← hn]; exact hJ b hb)
    a hme rfl
  refine ⟨hget, ?_⟩
  intro hr
  rw [Snapshot_of_ready hr]
  refine ⟨by simp [hme], ?_, ?_⟩
  · exact List.mem_map.mpr ⟨(_, a), mem_of_mapGet hget, rfl⟩
  · intro e he hname
    obtain ⟨p, hp, rfl⟩ := List.mem_map.mp he
    rw [hwf'.name_eq p hp] at hname
    have hp2 := mapGet_of_mem hwf'.keys_nodup hp
    rw [hname, hget] at hp2
    rw [← Option.some.inj hp2]

/-- Witness of C14, amended: after the updates of `a` (self) and `b`, `MarkReady`, the
removal of `b` and another update of `a`, self is the object the map holds under `a`. -/
theorem C14_self_alias_witness :
    Reachable ipv4Net (NewNodeMap isNodeA) ∧
      (run ipv4Net (NewNodeMap isNodeA)
        [.updateNode nodeA, .updateNode nodeB, .markReady, .removeNode nodeB,
          .updateNode nodeABad]).me = some 0 ∧
      mapGet (run ipv4Net (NewNodeMap isNodeA)
        [.updateNode nodeA, .updateNode nodeB, .markReady, .removeNode nodeB,
          .updateNode nodeABad]).nodes
        (deref (run ipv4Net (NewNodeMap isNodeA)
          [.updateNode nodeA, .updateNode nodeB, .markReady, .removeNode nodeB,
            .updateNode nodeABad]).heap 0).Name = some 0 :=
  ⟨⟨isNodeA, [], rfl⟩, by decide,
    (C14_self_alias ipv4Net (NewNodeMap isNodeA)
      [.updateNode nodeA, .updateNode nodeB, .markReady, .removeNode nodeB,
        .updateNode nodeABad] 0 ⟨isNodeA, [], rfl⟩ (fun b hb => by simp [NewNodeMap] at hb)
      (by decide) (by decide)).1⟩

/-! ## The version along a sequence of operations -/

theorem run_opsMax : run ipv4Net (NewNodeMap isNodeA) opsMax = stateMax := by
  rw [opsMax, run_append]
  show run ipv4Net stateAB _ = stateMax
  rw [run_replicate_removeNode ipv4Net nodeC _ stateAB (by decide) (by decide)]
  have e : (stateAB.version + (2 ^ 64 - 3)) % 2 ^ 64 = 2 ^ 64 - 1 := by decide
  rw [e]
  rfl

theorem run_snoc (net : NetLib) (m : NodeMap) (ops : List Op) (o : Op) :
    run net m (ops ++ [o]) = step net (run net m ops) o := by
  rw [run_append]
  rfl

/-- From `NewNodeMap`, fewer than `2 ^ 64` operations give a version that is at most their
number. -/
theorem run_NewNodeMap_version_le (net : NetLib) (p : Node → Bool) (ops : List Op)
    (hl : ops.length < 2 ^ 64) : (run net (NewNodeMap p) ops).version ≤ ops.length := by
  obtain ⟨k, hk, hv, _⟩ := run_version_count net ops (WF_NewNodeMap p)
  rw [hv]
  show (0 + k) % 2 ^ 64 ≤ ops.length
  rw [Nat.zero_add, Nat.mod_eq_of_lt (by omega)]
  exact hk

/-- C15, as stated, fails: after the `2 ^ 64` operations of `opsMax` from `NewNodeMap` the
version is `2 ^ 64 - 1`, and after one more call, a `RemoveNode`, it is 0, which is smaller
than the version before the call. -/
theorem C15_counterexample :
    (run ipv4Net (NewNodeMap isNodeA) opsMax).version = 2 ^ 64 - 1 ∧
      (run ipv4Net (NewNodeMap isNodeA) (opsMax ++ [.removeNode nodeB])).version = 0 ∧
      ¬ (run ipv4Net (NewNodeMap isNodeA) opsMax).version ≤
        (run ipv4Net (NewNodeMap isNodeA) (opsMax ++ [.removeNode nodeB])).version := by
  rw [run_snoc, run_opsMax]
  decide

/-- C15, amended: along every sequence of calls applied to a registry built by
`NewNodeMap`, a call leaves the 64-bit version as it is or increments it modulo `2 ^ 64`.
So the version after a call is greater than or equal to the version before it unless the
version before is `2 ^ 64 - 1`, where an increment wraps to 0; in particular it is so for
every call of a sequence of fewer than `2 ^ 64` calls. -/
theorem C15_version_monotone (net : NetLib) (p : Node → Bool) (ops : List Op) (o : Op) :
    ((step net (run net (NewNodeMap p) ops) o).version = (run net (NewNodeMap p) ops).version ∨
      (step net (run net (NewNodeMap p) ops) o).version
        = ((run net (NewNodeMap p) ops).version + 1) % 2 ^ 64) ∧
    ((run net (NewNodeMap p) ops).version ≠ 2 ^ 64 - 1 →
      (run net (NewNodeMap p) ops).version ≤
        (step net (run net (NewNodeMap p) ops) o).version) ∧
    ((ops ++ [o]).length < 2 ^ 64 →
      (run net (NewNodeMap p) ops).version ≤
        (run net (NewNodeMap p) (ops ++ [o])).version) := by
  have hwf : WF (run net (NewNodeMap p) ops) := WF_run net ops (WF_NewNodeMap p)
  have hlt := hwf.version_lt
  have hstep : (step net (run net (NewNodeMap p) ops) o).version
        = (run net (NewNodeMap p) ops).version ∨
      (step net (run net (NewNodeMap p) ops) o).version
        = ((run net (NewNodeMap p) ops).version + 1) % 2 ^ 64 := by
    rcases step_same_or_bump net (run net (NewNodeMap p) ops) o with h1 | h1
    · exact Or.inl h1.1
    · exact Or.inr h1
  have hmono : (run net (NewNodeMap p) ops).version ≠ 2 ^ 64 - 1 →
      (run net (NewNodeMap p) ops).version ≤
        (step net (run net (NewNodeMap p) ops) o).version := by
    intro hne
    rcases hstep with h1 | h1
    · rw [h1]
    · rw [h1, Nat.mod_eq_of_lt (by omega)]
      omega
  refine ⟨hstep, hmono, ?_⟩
  intro hl
  rw [run_snoc]
  apply hmono
  simp only [List.length_append, List.length_singleton] at hl
  have := run_NewNodeMap_version_le net p ops (by omega)
  omega

/-- Witness of C15, amended: the version goes from 2 to 3 with the removal of `a` after the
three operations of `stateAB`. -/
theorem C15_version_monotone_witness :
    ([Op.updateNode nodeA, Op.updateNode nodeB, Op.markReady] ++ [Op.removeNode nodeA]).length
        < 2 ^ 64 ∧
      (run ipv4Net (NewNodeMap isNodeA)
        [.updateNode nodeA, .updateNode nodeB, .markReady]).version = 2 ∧
      (run ipv4Net (NewNodeMap isNodeA)
        ([.updateNode nodeA, .updateNode nodeB, .markReady] ++ [.removeNode nodeA])).version
        = 3 ∧
      (run ipv4Net (NewNodeMap isNodeA)
        [.updateNode nodeA, .updateNode nodeB, .markReady]).version ≤
      (run ipv4Net (NewNodeMap isNodeA)
        ([.updateNode nodeA, .updateNode nodeB, .markReady] ++ [.removeNode nodeA])).version :=
  ⟨by decide, by decide, by decide,
    (C15_version_monotone ipv4Net isNodeA [.updateNode nodeA, .updateNode nodeB, .markReady]
      (.removeNode nodeA)).2.2 (by decide)⟩

/-! ## Readiness never reverts -/

theorem step_ready_true (net : NetLib) {m : NodeMap} (o : Op) (h : m.ready = true) :
    (step net m o).ready = true := by
  cases o with
  | updateNode src => exact (UpdateNode_ready net m src).trans h
  | removeNode node => exact h
  | markReady => rfl
  | isReady => exact h
  | isVersion v => exact h
  | snapshot => exact h

theorem run_ready_true (net : NetLib) (ops : List Op) {m : NodeMap} (h : m.ready = true) :
    (run net m ops).ready = true := by
  induction ops generalizing m with
  | nil => exact h
  | cons o ops ih => exact ih (step_ready_true net o h)

/-- C16: readiness never reverts. A registry built by `NewNodeMap` is not ready; after
`MarkReady`, `IsReady` returns true, and it returns true after every further sequence of
public operations; a second `MarkReady` gives the state of the first, and `MarkReady`
changes neither the version, nor the map, nor the objects, nor the self reference. -/
theorem C16_readiness (net : NetLib) (p : Node → Bool) (m : NodeMap) (ops : List Op) :
    (NewNodeMap p).IsReady = false ∧ m.MarkReady.IsReady = true ∧
      (run net m.MarkReady ops).IsReady = true ∧
      m.MarkReady.MarkReady = m.MarkReady ∧
      m.MarkReady.version = m.version ∧ m.MarkReady.nodes = m.nodes ∧
      m.MarkReady.heap = m.heap ∧ m.MarkReady.me = m.me ∧
      m.MarkReady.Snapshot = (run net m [.markReady, .markReady, .snapshot]).Snapshot :=
  ⟨rfl, rfl, run_ready_true net ops rfl, rfl, rfl, rfl, rfl, rfl, rfl⟩

/-! ## Equality by value -/

theorem canonIP_length (x : List Nat) :
    (canonIP x).length = if x.length = 4 then 16 else x.length := by
  unfold canonIP
  split <;> simp [v4InV6, *]

theorem IPEqual_iff_canonIP (x y : List Nat) : IPEqual x y = true ↔ canonIP x = canonIP y := by
  by_cases hl : x.length = y.length
  · have h1 : IPEqual x y = decide (x = y) := by simp [IPEqual, hl]
    rw [h1, decide_eq_true_eq]
    unfold canonIP
    by_cases h4 : x.length = 4
    · have h4' : y.length = 4 := hl ▸ h4
      simp [h4, h4']
    · have h4' : ¬ y.length = 4 := hl ▸ h4
      simp [h4, h4']
  · by_cases h1 : x.length = 4 ∧ y.length = 16
    · have hy : ¬ y.length = 4 := by omega
      have e : IPEqual x y = (decide (y.take 12 = v4InV6) && decide (x = y.drop 12)) := by
        simp [IPEqual, hl, h1]
      rw [e]
      simp only [canonIP, h1.1, hy, if_true, if_false, Bool.and_eq_true, decide_eq_true_eq]
      constructor
      · rintro ⟨ht, hd⟩
        rw [← ht, hd, List.take_append_drop]
      · intro h
        rw [← h]
        simp [v4InV6]
    · by_cases h2 : x.length = 16 ∧ y.length = 4
      · have hx : ¬ x.length = 4 := by omega
        have e : IPEqual x y = (decide (x.take 12 = v4InV6) && decide (x.drop 12 = y)) := by
          simp [IPEqual, hl, h1, h2]
        rw [e]
        simp only [canonIP, h2.2, hx, if_true, if_false, Bool.and_eq_true, decide_eq_true_eq]
        constructor
        · rintro ⟨ht, hd⟩
          rw [← ht, ← hd, List.take_append_drop]
        · intro h
          rw [h]
          simp [v4InV6]
      · have e : IPEqual x y = false := by simp [IPEqual, hl, h1, h2]
        rw [e]
        constructor
        · intro h
          cases h
        · intro h
          exfalso
          have hlen := congrArg List.length h
          rw [canonIP_length, canonIP_length] at hlen
          split at hlen <;> split at hlen <;> omega

theorem IPEqual_symm {x y : List Nat} (h : IPEqual x y = true) : IPEqual y x = true :=
  (IPEqual_iff_canonIP y x).mpr ((IPEqual_iff_canonIP x y).mp h).symm

theorem IPEqual_trans {x y z : List Nat} (h : IPEqual x y = true) (h' : IPEqual y z = true) :
    IPEqual x z = true :=
  (IPEqual_iff_canonIP x z).mpr
    (((IPEqual_iff_canonIP x y).mp h).trans ((IPEqual_iff_canonIP y z).mp h'))

/-- Two subnet attributes equal by value to a third are equal by value. -/
theorem samePodCIDR_common {x y z : Option IPNet} (h : samePodCIDR x z = true)
    (h' : samePodCIDR y z = true) : samePodCIDR x y = true := by
  cases x <;> cases y <;> cases z <;> simp [samePodCIDR] at h h' ⊢
  exact ⟨IPEqual_trans (IPEqual_symm h'.1) h.1, h.2.trans h'.2.symm⟩

/-- Two address attributes equal by value to a third are equal by value. -/
theorem sameAddress_common {x y z : Option (List Nat)} (h : sameAddress x z = true)
    (h' : sameAddress y z = true) : sameAddress x y = true := by
  cases x <;> cases y <;> cases z <;> simp [sameAddress] at h h' ⊢
  exact IPEqual_trans h (IPEqual_symm h')

/-! ## The attributes after `update` -/

theorem updatePodCIDR_same_norm (net : NetLib) (n : NodeInfo) (src : Node) :
    samePodCIDR (n.updatePodCIDR net src).1.PodCIDR (normPodCIDR net src) = true ∧
      (n.PodCIDR = none → (n.updatePodCIDR net src).1.PodCIDR = normPodCIDR net src) := by
  rw [updatePodCIDR_eq_norm]
  cases hnorm : normPodCIDR net src with
  | none =>
    dsimp only
    split <;> simp_all [samePodCIDR]
  | some ipnet =>
    dsimp only
    cases hn : n.PodCIDR with
    | none => simp [samePodCIDR, IPEqual_self]
    | some cur =>
      dsimp only
      by_cases h4 : (!(IPEqual ipnet.IP cur.IP) || !(decide (cur.Mask = ipnet.Mask))) = true
      · rw [if_pos h4]
        simp [samePodCIDR, IPEqual_self]
      · rw [if_neg h4]
        simp only [Bool.or_eq_true, Bool.not_eq_true', decide_eq_false_iff_not, not_or,
          Bool.not_eq_false, not_not] at h4
        simp [samePodCIDR, hn, h4.1, h4.2]

theorem IPEqual_nil_left {a : List Nat} (h : IPEqual [] a = true) : a = [] := by
  by_cases hl : ([] : List Nat).length = a.length
  · exact List.length_eq_zero.mp hl.symm
  · simp [IPEqual, hl] at h
    exact h.2

theorem updateAddress_same_norm (net : NetLib) (n : NodeInfo) (src : Node)
    (ha : normAddress net src ≠ some []) :
    sameAddress (n.updateAddress net src).1.Address (normAddress net src) = true ∧
      (n.Address = none → (n.updateAddress net src).1.Address = normAddress net src) := by
  rw [updateAddress_eq_norm]
  cases hnorm : normAddress net src with
  | none =>
    dsimp only
    split <;> simp_all [sameAddress]
  | some a =>
    have hane : a ≠ [] := by
      intro e
      rw [hnorm, e] at ha
      exact ha rfl
    dsimp only
    by_cases h4 : (!IPEqual (n.Address.getD []) a) = true
    · rw [if_pos h4]
      simp [sameAddress, IPEqual_self]
    · rw [if_neg h4]
      have h5 : IPEqual (n.Address.getD []) a = true := by simpa using h4
      cases hn : n.Address with
      | none =>
        rw [hn] at h5
        exact absurd (IPEqual_nil_left h5) hane
      | some c =>
        rw [hn] at h5
        simp [sameAddress, hn]
        exact h5

/-- The attributes of an entry after `update` are the normalized attributes of the record,
by value. -/
theorem update_same_norm (net : NetLib) (n : NodeInfo) (src : Node)
    (ha : normAddress net src ≠ some []) :
    samePodCIDR (n.update net src).1.PodCIDR (normPodCIDR net src) = true ∧
      sameAddress (n.update net src).1.Address (normAddress net src) = true := by
  constructor
  · show samePodCIDR ((n.updatePodCIDR net src).1.updateAddress net src).1.PodCIDR _ = true
    rw [updateAddress_podCIDR]
    exact (updatePodCIDR_same_norm net n src).1
  · exact (updateAddress_same_norm net _ src ha).1

/-- C18: the attributes of an entry after `update` depend on the record only, not on what
the entry held. By value, the subnet is the network parsed from the subnet string of the
record, or absent when the string is empty or is not parsed, and the address is the parsed
value of the chosen internal candidate (a slice that is not empty, as every result of
`net.ParseIP` is), or absent when there is no candidate or it is not parsed; an attribute
that was absent gets the very value. So two entries updated with the same record hold
attributes equal by value, whatever they held before. -/
theorem C18_update_latest (net : NetLib) (n n' : NodeInfo) (src : Node)
    (ha : normAddress net src ≠ some []) :
    samePodCIDR (n.update net src).1.PodCIDR (normPodCIDR net src) = true ∧
    sameAddress (n.update net src).1.Address (normAddress net src) = true ∧
    (n.PodCIDR = none → (n.update net src).1.PodCIDR = normPodCIDR net src) ∧
    (n.Address = none → (n.update net src).1.Address = normAddress net src) ∧
    samePodCIDR (n.update net src).1.PodCIDR (n'.update net src).1.PodCIDR = true ∧
    sameAddress (n.update net src).1.Address (n'.update net src).1.Address = true := by
  obtain ⟨h1, h2⟩ := update_same_norm net n src ha
  obtain ⟨h1', h2'⟩ := update_same_norm net n' src ha
  refine ⟨h1, h2, ?_, ?_, samePodCIDR_common h1 h1', sameAddress_common h2 h2'⟩
  · intro hn
    show ((n.updatePodCIDR net src).1.updateAddress net src).1.PodCIDR = _
    rw [updateAddress_podCIDR]
    exact (updatePodCIDR_same_norm net n src).2 hn
  · intro hn
    have := (updateAddress_same_norm net (n.updatePodCIDR net src).1 src ha).2
    rw [updatePodCIDR_address] at this
    exact this hn

/-- Witness of C18: the subnet string `10.1.2.0/24` is the network 10.1.2.0/24, and an
entry that held another subnet and another address holds, after `update` with `nodeA`, the
attributes a new entry gets. -/
theorem C18_update_latest_witness :
    normAddress ipv4Net nodeA ≠ some [] ∧
      normPodCIDR ipv4Net nodeA = some ⟨[10, 1, 2, 0], [255, 255, 255, 0]⟩ ∧
      (entryOld.update ipv4Net nodeA).1.PodCIDR = some ⟨[10, 1, 2, 0], [255, 255, 255, 0]⟩ ∧
      normPodCIDR ipv4Net nodeABad = none ∧
      (entryOld.update ipv4Net nodeABad).1.PodCIDR = none ∧
      samePodCIDR (entryOld.update ipv4Net nodeA).1.PodCIDR
        ((NodeInfo.mk "a" none none).update ipv4Net nodeA).1.PodCIDR = true ∧
      sameAddress (entryOld.update ipv4Net nodeA).1.Address
        ((NodeInfo.mk "a" none none).update ipv4Net nodeA).1.Address = true :=
  ⟨by decide, by decide, by decide, by decide, by decide,
    (C18_update_latest ipv4Net entryOld (NodeInfo.mk "a" none none) nodeA
      (by decide)).2.2.2.2.1,
    (C18_update_latest ipv4Net entryOld (NodeInfo.mk "a" none none) nodeA
      (by decide)).2.2.2.2.2⟩

/-! ## Candidates that are not addresses -/

theorem update_address_of_norm_none (net : NetLib) (n : NodeInfo) {src : Node}
    (h : normAddress net src = none) : (n.update net src).1.Address = none := by
  show ((n.updatePodCIDR net src).1.updateAddress net src).1.Address = none
  rw [updateAddress_eq_norm, h]
  dsimp only
  split <;> simp_all

/-- C19: for a record with two or more internal addresses whose smallest address string is
not parsed as an IP address, `update` leaves the address of the entry absent, whatever the
other internal addresses are; and for a record with no internal address the address of the
entry is absent after `update`, whatever the other address records are. -/
theorem C19_no_address (net : NetLib) (n : NodeInfo) (src : Node) :
    (∀ s, 2 ≤ (internalIPs src).length → s ∈ internalIPs src →
      (∀ t ∈ internalIPs src, s.data ≤ t.data) → net.ParseIP s = none →
      (n.update net src).1.Address = none) ∧
    (internalIPs src = [] → (n.update net src).1.Address = none) := by
  constructor
  · intro s _ hs hmin hp
    apply update_address_of_norm_none
    simp [normAddress, chosenIP_of_min hs hmin, hp]
  · intro h
    apply update_address_of_norm_none
    simp [normAddress, chosenIP_none h]

/-- Witness of C19: the record `nodeD` has the internal addresses `10.0.0.5`, which parses,
and `10.0.0`, which is smaller and does not; the entry `entryOld`, which holds an address,
has none after `update`. The record `nodeE` has no internal address, and the entry has no
address after `update` either. -/
theorem C19_no_address_witness :
    2 ≤ (internalIPs nodeD).length ∧ "10.0.0" ∈ internalIPs nodeD ∧
      (∀ t ∈ internalIPs nodeD, "10.0.0".data ≤ t.data) ∧
      ipv4Net.ParseIP "10.0.0" = none ∧ ipv4Net.ParseIP "10.0.0.5" ≠ none ∧
      entryOld.Address ≠ none ∧ internalIPs nodeE = [] ∧
      (entryOld.update ipv4Net nodeD).1.Address = none ∧
      (entryOld.update ipv4Net nodeE).1.Address = none :=
  ⟨by decide, by decide, by decide, by decide, by decide, by decide, by decide,
    (C19_no_address ipv4Net entryOld nodeD).1 "10.0.0" (by decide) (by decide) (by decide)
      (by decide),
    (C19_no_address ipv4Net entryOld nodeE).2 (by decide)⟩

/-! ## Keys and names -/

/-- C20: in every state reached from `NewNodeMap`, each key of the map is the `Name` of the
object stored under it, and the names in the node sequence of `Snapshot` are pairwise
distinct. -/
theorem C20_key_is_name (net : NetLib) (m : NodeMap) (h : Reachable net m) :
    (∀ k a, mapGet m.nodes k = some a → (deref m.heap a).Name = k) ∧
    (∀ p ∈ m.nodes, (deref m.heap p.2).Name = p.1) ∧
    (m.ready = true → m.Snapshot.2.1.map (fun e => e.Name) = m.nodes.map (fun p => p.1)) ∧
    (m.Snapshot.2.1.map (fun e => e.Name)).Nodup := by
  have hwf := WF_of_Reachable h
  refine ⟨fun k a hk => hwf.name_eq _ (mem_of_mapGet hk), hwf.name_eq, ?_, ?_⟩
  · intro hr
    rw [Snapshot_of_ready hr]
    exact map_name_deref hwf
  · cases hr : m.ready with
    | false =>
      rw [Snapshot_of_not_ready hr]
      exact List.nodup_nil
    | true =>
      rw [Snapshot_of_ready hr]
      show ((m.nodes.map (fun p => deref m.heap p.2)).map (fun e => e.Name)).Nodup
      rw [map_name_deref hwf]
      exact hwf.keys_nodup

/-- Witness of C20: in the reachable state `stateReadded`, where `a` was removed and
entered again, the key `a` has the object at address 1, named `a`, and the snapshot has
one entry of that name. -/
theorem C20_key_is_name_witness :
    Reachable ipv4Net stateReadded ∧ mapGet stateReadded.nodes "a" = some 1 ∧
      (deref stateReadded.heap 1).Name = "a" ∧
      (stateReadded.Snapshot.2.1.map (fun e => e.Name)).Nodup :=
  ⟨⟨isNodeA, _, rfl⟩, by decide,
    (C20_key_is_name ipv4Net stateReadded ⟨isNodeA, _, rfl⟩).1 "a" 1 (by decide),
    (C20_key_is_name ipv4Net stateReadded ⟨isNodeA, _, rfl⟩).2.2.2⟩

end Routing
